import Mathlib

/-
Verification of the N-dimensional lazy segment tree (ndsegtree.h).

The embedding mirrors the source: cubes are axis-aligned half-open integer
boxes with per-axis bound lists, the engine state is the pair of flat arrays
(values / pending operations) modelled as total maps from node index, and the
three recursions (build, range-apply, range-query) carry explicit fuel since
the C++ recursion has no termination guarantee.  C++ integer division
truncates toward zero, hence Int.tdiv throughout.
-/

namespace NDSeg

/-- C++ integer midpoint, division truncating toward zero. -/
def mid (a b : Int) : Int := Int.tdiv (a + b) 2

/-- The Cube template: axis-aligned half-open box, bounds `l` inclusive and
`r` exclusive per axis. -/
structure Cube where
  l : List Int
  r : List Int
deriving DecidableEq

/-- Product of per-axis extents, as in Cube::Volume. -/
def Cube.volume (q : Cube) : Int := (List.zipWith (fun b a => b - a) q.r q.l).prod

/-- Per-axis midpoints, as in Cube::Center. -/
def Cube.center (q : Cube) : List Int := List.zipWith mid q.l q.r

def Cube.isEmpty (q : Cube) : Bool := q.volume == 0

def Cube.isPoint (q : Cube) : Bool := q.volume == 1

/-- Axis bounds of quadrant `i` of Cube::Subdivide: bit k of `i` selects the
half of axis k, bit 1 giving the lower half and bit 0 the upper half; the
head of the lists is axis 0, so bit extraction walks `i % 2` / `i / 2`. -/
def childAxes : List Int → List Int → Nat → List Int × List Int
  | a :: as, b :: bs, i =>
    let m := mid a b
    let rest := childAxes as bs (i / 2)
    if i % 2 = 1 then (a :: rest.1, m :: rest.2) else (m :: rest.1, b :: rest.2)
  | _, _, _ => ([], [])

/-- Quadrant `i` of a cube. -/
def Cube.child (q : Cube) (i : Nat) : Cube :=
  ⟨(childAxes q.l q.r i).1, (childAxes q.l q.r i).2⟩

/-- Cube::Subdivide: the 2^n quadrants listed in bit-pattern order. -/
def Cube.subdivide (n : Nat) (q : Cube) : List Cube := (List.range (2 ^ n)).map q.child

/-- Per-axis intersection bounds, with the collapse of an inverted axis to the
pair (0,0) exactly as Cube::IntersectWith does. -/
def interAxes : List Int → List Int → List Int → List Int → List Int × List Int
  | a1 :: as1, b1 :: bs1, a2 :: as2, b2 :: bs2 =>
    let lo := max a1 a2
    let hi := min b1 b2
    let rest := interAxes as1 bs1 as2 bs2
    if hi ≤ lo then (0 :: rest.1, 0 :: rest.2) else (lo :: rest.1, hi :: rest.2)
  | _, _, _, _ => ([], [])

/-- Cube::IntersectWith. -/
def Cube.inter (q o : Cube) : Cube :=
  ⟨(interAxes q.l q.r o.l o.r).1, (interAxes q.l q.r o.l o.r).2⟩

/-- The lazy Operation: assign-to-constant when `reset_pending`, else
add-constant, with payload `to_add`. -/
structure Op where
  reset_pending : Bool
  to_add : Int
deriving DecidableEq

/-- The identity operation; the zeroed object of Operation::Reset. -/
def Op.identity : Op := ⟨false, 0⟩

/-- Operation::Evaluate over a domain. -/
def Op.evaluate (op : Op) (val : Int) (domain : Cube) : Int :=
  if op.reset_pending then domain.volume * op.to_add else val + domain.volume * op.to_add

/-- Operation::ComposeWith; `other` is the operation arriving after `self`. -/
def Op.composeWith (self other : Op) : Op :=
  if other.reset_pending then other else ⟨self.reset_pending, self.to_add + other.to_add⟩

/-- Engine state: the two flat arrays tree_ (aggregates) and operations_
(pending lazy operations) as total maps over node indices. -/
structure ST where
  tree : Nat → Int
  ops : Nat → Op

/-- Point update of a flat array. -/
def upd {α : Type} (f : Nat → α) (v : Nat) (x : α) : Nat → α :=
  fun w => if w = v then x else f w

/-- SegmentTree::Child, the N-ary flat addressing with N = 2^n. -/
def child (n v i : Nat) : Nat := 2 ^ n * v + i + 1

/-- SegmentTree::UpdateValueFromBelow. -/
def updateValueFromBelow (n : Nat) (s : ST) (v : Nat) : ST :=
  { s with tree := upd s.tree v (((List.range (2 ^ n)).map fun i => s.tree (child n v i)).sum) }

/-- SegmentTree::UpdateValueFromAbove. -/
def updateValueFromAbove (s : ST) (v : Nat) (domain : Cube) : ST :=
  { s with tree := upd s.tree v ((s.ops v).evaluate (s.tree v) domain) }

/-- SegmentTree::EvaluateAny. -/
def evaluateAny (s : ST) (v : Nat) (domain : Cube) (op : Op) : ST :=
  let s1 : ST := { s with ops := upd s.ops v ((s.ops v).composeWith op) }
  let s2 := updateValueFromAbove s1 v domain
  if domain.isPoint then { s2 with ops := upd s2.ops v Op.identity } else s2

/-- One iteration of the child loop in SegmentTree::Push. -/
def pushChild (n : Nat) (s : ST) (v i : Nat) (quad : Cube) : ST :=
  let c := child n v i
  let s1 : ST := { s with ops := upd s.ops c ((s.ops c).composeWith (s.ops v)) }
  if quad.isPoint then
    let s2 := updateValueFromAbove s1 c quad
    { s2 with ops := upd s2.ops c Op.identity }
  else s1

/-- The child loop of SegmentTree::Push over the indexed quadrants. -/
def pushLoop (n v : Nat) : List (Nat × Cube) → ST → ST
  | [], s => s
  | p :: rest, s => pushLoop n v rest (pushChild n s v p.1 p.2)

/-- SegmentTree::Push. -/
def push (n : Nat) (s : ST) (v : Nat) (domain : Cube) (quads : List Cube) : ST :=
  let s1 := pushLoop n v quads.enum s
  let s2 := updateValueFromAbove s1 v domain
  { s2 with ops := upd s2.ops v Op.identity }

/-- The child loop of SegmentTree::ApplyOperationR. -/
def applyFold (n : Nat) (recf : ST → Nat → Cube → Cube → Option ST) (Q : Cube) (v : Nat) :
    List (Nat × Cube) → ST → Option ST
  | [], s => some s
  | p :: rest, s =>
    let qs := p.2.inter Q
    if qs.isEmpty then applyFold n recf Q v rest s
    else
      match recf s (child n v p.1) qs p.2 with
      | none => none
      | some s2 => applyFold n recf Q v rest s2

/-- SegmentTree::ApplyOperationR, with explicit recursion fuel. -/
def applyOperationR (n : Nat) (op : Op) : Nat → ST → Nat → Cube → Cube → Option ST
  | 0, _, _, _, _ => none
  | fuel + 1, s, v, Q, domain =>
    if Q = domain then some (evaluateAny s v Q op)
    else
      let quads := domain.subdivide n
      let s1 := push n s v domain quads
      match applyFold n (applyOperationR n op fuel) Q v quads.enum s1 with
      | none => none
      | some s2 => some (updateValueFromBelow n s2 v)

/-- The child loop of SegmentTree::QueryRangeR. -/
def queryFold (n : Nat) (recf : ST → Nat → Cube → Cube → Option (Int × ST)) (Q : Cube)
    (v : Nat) : List (Nat × Cube) → Int → ST → Option (Int × ST)
  | [], acc, s => some (acc, s)
  | p :: rest, acc, s =>
    let qs := p.2.inter Q
    if qs.isEmpty then queryFold n recf Q v rest acc s
    else
      match recf s (child n v p.1) qs p.2 with
      | none => none
      | some rs => queryFold n recf Q v rest (acc + rs.1) rs.2

/-- SegmentTree::QueryRangeR, with explicit recursion fuel. -/
def queryRangeR (n : Nat) : Nat → ST → Nat → Cube → Cube → Option (Int × ST)
  | 0, _, _, _, _ => none
  | fuel + 1, s, v, Q, domain =>
    if Q = domain then some (s.tree v, s)
    else
      let quads := domain.subdivide n
      let s1 := push n s v domain quads
      queryFold n (queryRangeR n fuel) Q v quads.enum 0 s1

/-- Inner loop of SegmentTree::Linear: idx = dims[i] * idx + coords[i+1]. -/
def linearAux : Int → List (Int × Int) → Int
  | acc, [] => acc
  | acc, dc :: rest => linearAux (dc.1 * acc + dc.2) rest

/-- SegmentTree::Linear: the flat index the build reads for a coordinate. -/
def linear (dims : List Int) : List Int → Int
  | [] => 0
  | c :: cs => linearAux c (dims.zip cs)

/-- Bounds-checked read of the initial flat array (vector access in C++). -/
def arrGet (arr : List Int) (i : Int) : Option Int :=
  if 0 ≤ i then arr.get? i.toNat else none

/-- The child loop of SegmentTree::BuildTreeR. -/
def buildFold (n : Nat) (recf : ST → Cube → Nat → Option ST) (v : Nat) :
    List (Nat × Cube) → ST → Option ST
  | [], s => some s
  | p :: rest, s =>
    match recf s p.2 (child n v p.1) with
    | none => none
    | some s2 => buildFold n recf v rest s2

/-- SegmentTree::BuildTreeR, with explicit recursion fuel. -/
def buildTreeR (n : Nat) (dims arr : List Int) : Nat → ST → Cube → Nat → Option ST
  | 0, _, _, _ => none
  | fuel + 1, s, domain, v =>
    if domain.isPoint then
      match arrGet arr (linear dims domain.l) with
      | none => none
      | some x => some { s with tree := upd s.tree v x }
    else
      let quads := domain.subdivide n
      match buildFold n (buildTreeR n dims arr fuel) v quads.enum s with
      | none => none
      | some s2 => some (updateValueFromBelow n s2 v)

/-- Zero-initialized arrays, as allocated by the constructor. -/
def initST : ST := ⟨fun _ => 0, fun _ => Op.identity⟩

/-- The entire domain [0, dims) fixed by the constructor. -/
def entireDomain (n : Nat) (dims : List Int) : Cube := ⟨List.replicate n 0, dims⟩

/-- The constructor body: allocate zeroed arrays and run BuildTree. -/
def segMk (n : Nat) (dims arr : List Int) (fuel : Nat) : Option ST :=
  buildTreeR n dims arr fuel initST (entireDomain n dims) 0

/-- SegmentTree::ApplyToRange. -/
def applyToRange (n : Nat) (ent : Cube) (fuel : Nat) (s : ST) (domain : Cube) (op : Op) :
    Option ST :=
  applyOperationR n op fuel s 0 domain ent

/-- SegmentTree::AssignRange. -/
def assignRange (n : Nat) (ent : Cube) (fuel : Nat) (s : ST) (domain : Cube) (val : Int) :
    Option ST :=
  applyToRange n ent fuel s domain ⟨true, val⟩

/-- SegmentTree::AddToRange. -/
def addToRange (n : Nat) (ent : Cube) (fuel : Nat) (s : ST) (domain : Cube) (inc : Int) :
    Option ST :=
  applyToRange n ent fuel s domain ⟨false, inc⟩

/-- SegmentTree::QueryRange. -/
def queryRange (n : Nat) (ent : Cube) (fuel : Nat) (s : ST) (domain : Cube) :
    Option (Int × ST) :=
  queryRangeR n fuel s 0 domain ent

/-- SegmentTree::Get on the unit cube at a coordinate vector. -/
def getCell (n : Nat) (ent : Cube) (fuel : Nat) (s : ST) (I : List Int) : Option (Int × ST) :=
  queryRange n ent fuel s ⟨I, I.map (· + 1)⟩

/-- Per-axis membership test of a cell in a cube (specification side). -/
def cellInAxes : List Int → List Int → List Int → Bool
  | a :: as, b :: bs, x :: xs => decide (a ≤ x) && decide (x < b) && cellInAxes as bs xs
  | [], [], [] => true
  | _, _, _ => false

def Cube.containsCell (q : Cube) (c : List Int) : Bool := cellInAxes q.l q.r c

/-- All integer cells of a box, axis 0 outermost (specification side). -/
def cellsAxes : List Int → List Int → List (List Int)
  | a :: as, b :: bs =>
    ((List.range (b - a).toNat).map fun k => a + (k : Int)).flatMap fun x =>
      (cellsAxes as bs).map fun cs => x :: cs
  | _, _ => [[]]

def Cube.cells (q : Cube) : List (List Int) := cellsAxes q.l q.r

/-- Effect of one bulk operation on one covered cell (specification side). -/
def applyOpCell (x : Int) (op : Op) : Int :=
  if op.reset_pending then op.to_add else x + op.to_add

/-- Expected value of a cell after a mutation sequence applied in call order
to the cells whose domains contain it (specification side). -/
def cellValue (init : List Int → Int) (muts : List (Cube × Op)) (c : List Int) : Int :=
  muts.foldl (fun x m => if m.1.containsCell c then applyOpCell x m.2 else x) (init c)

/-- Expected sum of current cell values over a domain (specification side). -/
def specSum (init : List Int → Int) (muts : List (Cube × Op)) (q : Cube) : Int :=
  (q.cells.map (cellValue init muts)).sum

/-- Modelled from the spec: the row-major linearization over the N axes that
the specification prescribes for the initial flat array (the quantity
SegmentTree::Linear is supposed to compute). -/
def rowMajor : List Int → List Int → Int :=
  fun dims coords => (dims.zip coords).foldl (fun acc dc => dc.1 * acc + dc.2) 0

/-- Per-axis boundedness l ≤ r of a cube. -/
def ordAxes : List Int → List Int → Bool
  | a :: as, b :: bs => decide (a ≤ b) && ordAxes as bs
  | [], [] => true
  | _, _ => false

/-- Per-axis containment of one cube in another. -/
def contAxes : List Int → List Int → List Int → List Int → Bool
  | a1 :: as1, b1 :: bs1, a2 :: as2, b2 :: bs2 =>
    decide (a2 ≤ a1) && decide (b1 ≤ b2) && contAxes as1 bs1 as2 bs2
  | [], [], [], [] => true
  | _, _, _, _ => false

def Cube.containedIn (q ent : Cube) : Bool := contAxes q.l q.r ent.l ent.r

/-- Node indices handed to the recursion of SegmentTree::BuildTreeR, i.e. the
labels of its call tree up to the given depth. -/
def buildNodes (n : Nat) : Nat → Cube → Nat → List Nat
  | 0, _, _ => []
  | fuel + 1, domain, v =>
    if domain.isPoint then [v]
    else
      v :: ((domain.subdivide n).enum.map fun p => buildNodes n fuel p.2 (child n v p.1)).flatten

/-- Node indices read or written by SegmentTree::ApplyOperationR and
SegmentTree::QueryRangeR (the two walk and touch the same indices: the node
itself, every child at a Push / UpdateValueFromBelow, and recursively the
children whose quadrant meets the query domain). -/
def rangeNodes (n : Nat) : Nat → Cube → Nat → Cube → List Nat
  | 0, _, _, _ => []
  | fuel + 1, Q, v, domain =>
    if Q = domain then [v]
    else
      v :: (((domain.subdivide n).enum.map fun p => child n v p.1) ++
        ((domain.subdivide n).enum.map fun p =>
          if (p.2.inter Q).isEmpty then []
          else rangeNodes n fuel (p.2.inter Q) (child n v p.1) p.2).flatten)


/-- Index of the unique quadrant (in the bit-pattern addressing of
Cube::Subdivide) whose half-open box contains a given cell. -/
def whichChild : List Int → List Int → List Int → Nat
  | a :: as, b :: bs, x :: xs => (if x < mid a b then 1 else 0) + 2 * whichChild as bs xs
  | _, _, _ => 0

/-- Largest node index reachable from node `v` in `j` levels of child steps
of the flat addressing. -/
def maxIdx (n v : Nat) : Nat → Nat
  | 0 => v
  | j + 1 => maxIdx n (2 ^ n * v + 2 ^ n) j

/-- All axis extents equal to 2^j. -/
def unifAxes (j : Nat) : List Int → List Int → Prop :=
  List.Forall₂ (fun a b => b = a + (2 : Int) ^ j)

/-- Descendant relation of the implicit flat N-ary addressing: `Desc n v w`
says node index `w` lies in the subtree of node indices rooted at `v`. -/
inductive Desc (n : Nat) : Nat → Nat → Prop
  | refl (v : Nat) : Desc n v v
  | step (v i w : Nat) : i < 2 ^ n → Desc n (child n v i) w → Desc n v w

/-- Two engine states agree at every node index satisfying `A`. -/
def agreeOn (A : Nat → Prop) (s t : ST) : Prop :=
  ∀ w, A w → s.tree w = t.tree w ∧ s.ops w = t.ops w

/-- A sample first query (of the cell domain [0,1) against the entire domain
[0,2) in one dimension) used to witness re-query idempotence. -/
def c7wRes : Option (Int × ST) := queryRangeR 1 3 initST 0 ⟨[0], [1]⟩ ⟨[0], [2]⟩

/-- The value returned by the sample first query. -/
def c7wVal : Int := c7wRes.elim 0 Prod.fst

/-- The engine state left behind by the sample first query. -/
def c7wSt : ST := c7wRes.elim initST Prod.snd

end NDSeg

namespace NDSeg
-- theorems appended to a copy of the defs for iteration

theorem buildE_none : ∀ (fuel : Nat) (s : ST) (v : Nat),
    buildTreeR 2 [2, 3] [0, 1, 2, 3, 4, 5] fuel s ⟨[1, 2], [1, 3]⟩ v = none := by
  intro fuel
  induction fuel with
  | zero => exact fun s v => rfl
  | succ f ih =>
    intro s v
    have key : buildFold 2 (buildTreeR 2 [2, 3] [0, 1, 2, 3, 4, 5] f) v
        (((Cube.mk [1, 2] [1, 3]).subdivide 2).enum) s = none := by
      show (match buildTreeR 2 [2, 3] [0, 1, 2, 3, 4, 5] f s ⟨[1, 2], [1, 3]⟩ (child 2 v 0) with
            | none => none
            | some s2 =>
              buildFold 2 (buildTreeR 2 [2, 3] [0, 1, 2, 3, 4, 5] f) v
                ((((Cube.mk [1, 2] [1, 3]).subdivide 2).enum).drop 1) s2) = none
      rw [ih s (child 2 v 0)]
    show (match buildFold 2 (buildTreeR 2 [2, 3] [0, 1, 2, 3, 4, 5] f) v
            (((Cube.mk [1, 2] [1, 3]).subdivide 2).enum) s with
          | none => none
          | some s2 => some (updateValueFromBelow 2 s2 v)) = none
    rw [key]

theorem buildB_none : ∀ (fuel : Nat) (s : ST) (v : Nat),
    buildTreeR 2 [2, 3] [0, 1, 2, 3, 4, 5] fuel s ⟨[1, 1], [2, 3]⟩ v = none := by
  intro fuel
  match fuel with
  | 0 => exact fun s v => rfl
  | 1 => exact fun s v => rfl
  | g + 2 =>
    intro s v
    have key : buildFold 2 (buildTreeR 2 [2, 3] [0, 1, 2, 3, 4, 5] (g + 1)) v
        (((Cube.mk [1, 1] [2, 3]).subdivide 2).enum) s = none := by
      show buildFold 2 (buildTreeR 2 [2, 3] [0, 1, 2, 3, 4, 5] (g + 1)) v
          ((((Cube.mk [1, 1] [2, 3]).subdivide 2).enum).drop 1)
          { s with tree := upd s.tree (child 2 v 0) 4 } = none
      show (match buildTreeR 2 [2, 3] [0, 1, 2, 3, 4, 5] (g + 1)
              { s with tree := upd s.tree (child 2 v 0) 4 } ⟨[1, 2], [1, 3]⟩ (child 2 v 1) with
            | none => none
            | some s2 =>
              buildFold 2 (buildTreeR 2 [2, 3] [0, 1, 2, 3, 4, 5] (g + 1)) v
                ((((Cube.mk [1, 1] [2, 3]).subdivide 2).enum).drop 2) s2) = none
      rw [buildE_none]
    show (match buildFold 2 (buildTreeR 2 [2, 3] [0, 1, 2, 3, 4, 5] (g + 1)) v
            (((Cube.mk [1, 1] [2, 3]).subdivide 2).enum) s with
          | none => none
          | some s2 => some (updateValueFromBelow 2 s2 v)) = none
    rw [key]

theorem c3_build_none : ∀ fuel, segMk 2 [2, 3] [0, 1, 2, 3, 4, 5] fuel = none := by
  intro fuel
  match fuel with
  | 0 => rfl
  | g + 1 =>
    have key : buildFold 2 (buildTreeR 2 [2, 3] [0, 1, 2, 3, 4, 5] g) 0
        (((entireDomain 2 [2, 3]).subdivide 2).enum) initST = none := by
      show (match buildTreeR 2 [2, 3] [0, 1, 2, 3, 4, 5] g initST ⟨[1, 1], [2, 3]⟩ (child 2 0 0) with
            | none => none
            | some s2 =>
              buildFold 2 (buildTreeR 2 [2, 3] [0, 1, 2, 3, 4, 5] g) 0
                ((((entireDomain 2 [2, 3]).subdivide 2).enum).drop 1) s2) = none
      rw [buildB_none]
    show (match buildFold 2 (buildTreeR 2 [2, 3] [0, 1, 2, 3, 4, 5] g) 0
            (((entireDomain 2 [2, 3]).subdivide 2).enum) initST with
          | none => none
          | some s2 => some (updateValueFromBelow 2 s2 0)) = none
    rw [key]



theorem buildE2_none : ∀ (fuel : Nat) (s : ST) (v : Nat),
    buildTreeR 2 [1, 2] [0, 0] fuel s ⟨[0, 1], [0, 2]⟩ v = none := by
  intro fuel
  induction fuel with
  | zero => exact fun s v => rfl
  | succ f ih =>
    intro s v
    have key : buildFold 2 (buildTreeR 2 [1, 2] [0, 0] f) v
        (((Cube.mk [0, 1] [0, 2]).subdivide 2).enum) s = none := by
      show (match buildTreeR 2 [1, 2] [0, 0] f s ⟨[0, 1], [0, 2]⟩ (child 2 v 0) with
            | none => none
            | some s2 =>
              buildFold 2 (buildTreeR 2 [1, 2] [0, 0] f) v
                ((((Cube.mk [0, 1] [0, 2]).subdivide 2).enum).drop 1) s2) = none
      rw [ih s (child 2 v 0)]
    show (match buildFold 2 (buildTreeR 2 [1, 2] [0, 0] f) v
            (((Cube.mk [0, 1] [0, 2]).subdivide 2).enum) s with
          | none => none
          | some s2 => some (updateValueFromBelow 2 s2 v)) = none
    rw [key]

theorem c4_build_none : ∀ fuel, segMk 2 [1, 2] [0, 0] fuel = none := by
  intro fuel
  match fuel with
  | 0 => rfl
  | 1 => rfl
  | g + 2 =>
    have key : buildFold 2 (buildTreeR 2 [1, 2] [0, 0] (g + 1)) 0
        (((entireDomain 2 [1, 2]).subdivide 2).enum) initST = none := by
      show buildFold 2 (buildTreeR 2 [1, 2] [0, 0] (g + 1)) 0
          ((((entireDomain 2 [1, 2]).subdivide 2).enum).drop 1)
          { initST with tree := upd initST.tree (child 2 0 0) 0 } = none
      show (match buildTreeR 2 [1, 2] [0, 0] (g + 1)
              { initST with tree := upd initST.tree (child 2 0 0) 0 } ⟨[0, 1], [0, 2]⟩
              (child 2 0 1) with
            | none => none
            | some s2 =>
              buildFold 2 (buildTreeR 2 [1, 2] [0, 0] (g + 1)) 0
                ((((entireDomain 2 [1, 2]).subdivide 2).enum).drop 2) s2) = none
      rw [buildE2_none]
    show (match buildFold 2 (buildTreeR 2 [1, 2] [0, 0] (g + 1)) 0
            (((entireDomain 2 [1, 2]).subdivide 2).enum) initST with
          | none => none
          | some s2 => some (updateValueFromBelow 2 s2 0)) = none
    rw [key]

-- concrete evaluation theorems
/-- C1: refuted on the code (code bug). For the structure built from the
all-zero array over dims [2], the mutation sequence add_range(whole, 5) then
add_range(whole, 3) followed by query_range(whole) returns 26, while the sum
of current cell values demanded by the claim is 16: EvaluateAny re-applies the
whole composed pending operation to an aggregate that already contains it. -/
theorem c1_sum_consistency_violated :
    ((segMk 1 [2] [0, 0] 2).bind fun s =>
      (addToRange 1 (entireDomain 1 [2]) 2 s ⟨[0], [2]⟩ 5).bind fun s2 =>
      (addToRange 1 (entireDomain 1 [2]) 2 s2 ⟨[0], [2]⟩ 3).bind fun s3 =>
      (queryRange 1 (entireDomain 1 [2]) 2 s3 ⟨[0], [2]⟩).map Prod.fst) = some 26
    ∧ specSum (fun _ => 0) [(⟨[0], [2]⟩, ⟨false, 5⟩), (⟨[0], [2]⟩, ⟨false, 3⟩)] ⟨[0], [2]⟩ = 16
    ∧ (26 : Int) ≠ 16 := by
  exact ⟨rfl, rfl, by decide⟩

/-- C2: refuted on the code (code bug). After build from [0,0] over dims [2]
and two exact-cover adds of 4 and 2, values[0] is 20 although the true sum
over the root domain (with pending[0] folded in, as it is) is 12, so the
stored value of the root is not current. -/
theorem c2_invariant_violated :
    ((segMk 1 [2] [0, 0] 2).bind fun s =>
      (addToRange 1 (entireDomain 1 [2]) 2 s ⟨[0], [2]⟩ 4).bind fun s2 =>
      (addToRange 1 (entireDomain 1 [2]) 2 s2 ⟨[0], [2]⟩ 2).map fun s3 => s3.tree 0) = some 20
    ∧ specSum (fun _ => 0) [(⟨[0], [2]⟩, ⟨false, 4⟩), (⟨[0], [2]⟩, ⟨false, 2⟩)] ⟨[0], [2]⟩ = 12
    ∧ (20 : Int) ≠ 12 := ⟨rfl, rfl, by decide⟩

/-- C6: refuted on the code (code bug). From the reachable state built from
[0,0] over dims [2] followed by add_range(whole, 5), query_range(whole)
returns 10; after add_range(whole, 3) it returns 26, an increase of 16 rather
than the claimed k * volume(D) = 3 * 2 = 6. -/
theorem c6_add_delta_violated :
    ((segMk 1 [2] [0, 0] 2).bind fun s =>
      (addToRange 1 (entireDomain 1 [2]) 2 s ⟨[0], [2]⟩ 5).bind fun s1 =>
      (queryRange 1 (entireDomain 1 [2]) 2 s1 ⟨[0], [2]⟩).bind fun q1 =>
      (addToRange 1 (entireDomain 1 [2]) 2 q1.2 ⟨[0], [2]⟩ 3).bind fun s2 =>
      (queryRange 1 (entireDomain 1 [2]) 2 s2 ⟨[0], [2]⟩).map fun q2 => (q1.1, q2.1))
      = some (10, 26)
    ∧ (26 : Int) ≠ 10 + 3 * Cube.volume ⟨[0], [2]⟩ := ⟨rfl, by decide⟩

/-- C9 counterexample: construction over extents [1] from the length-2 array
[5,7] (2 = length mismatches the volume 1) succeeds silently, the leaf taking
the first entry, instead of reporting a DimensionMismatch failure. -/
theorem c9_silent_build_counterexample :
    (segMk 1 [1] [5, 7] 1).map (fun s => s.tree 0) = some 5
    ∧ ((List.length [(5 : Int), 7] : Int) ≠ Cube.volume (entireDomain 1 [1])) :=
  ⟨rfl, by decide⟩

/-- C9 amended: the constructor performs no length validation at all. Over
extents [1], every array with at least one entry is accepted and silently
built, the structure storing the head entry; no DimensionMismatch-style
failure path exists in the code. -/
theorem c9_no_length_validation (x : Int) (rest : List Int) :
    (segMk 1 [1] (x :: rest) 1).map (fun s => s.tree 0) = some x := rfl

/-- C10: confirmed. A query whose domain is structurally equal to the entire
domain returns values[0] immediately from the root exact-cover check and
returns the state unchanged: no pushdown and no write to values[] or
pending[] happens. -/
theorem c10_whole_domain_query_pure (n fuel : Nat) (s : ST) (ent D : Cube) (h : D = ent) :
    queryRangeR n (fuel + 1) s 0 D ent = some (s.tree 0, s) := by
  simp [queryRangeR, h]

/-- C10 witness: a concrete state with value 7 and nonzero pending at every
node is returned untouched by a whole-domain query. -/
theorem c10_whole_domain_query_witness :
    queryRangeR 1 1 ⟨fun _ => 7, fun _ => ⟨false, 3⟩⟩ 0 (entireDomain 1 [2]) (entireDomain 1 [2])
      = some (7, ⟨fun _ => 7, fun _ => ⟨false, 3⟩⟩) :=
  c10_whole_domain_query_pure 1 0 ⟨fun _ => 7, fun _ => ⟨false, 3⟩⟩ (entireDomain 1 [2])
    (entireDomain 1 [2]) rfl

-- C5 counterexample check
/-- C5 counterexample: already for extents [1,2] (volume 2, allocation
4 * volume = 8) the construction recursion hands node index 9 to itself via
the Child formula, so the claimed bound fails. -/
theorem c5_bound_counterexample :
    9 ∈ buildNodes 2 3 (entireDomain 2 [1, 2]) 0
    ∧ ¬ ((9 : Int) < 4 * Cube.volume (entireDomain 2 [1, 2])) := by
  exact ⟨by decide, by decide⟩



theorem mid_between (a b : Int) (h : a ≤ b) : a ≤ mid a b ∧ mid a b ≤ b := by
  unfold mid
  rcases le_or_lt 0 (a + b) with h0 | h0
  · rw [Int.tdiv_eq_ediv h0 (by norm_num)]
    omega
  · have h1 : Int.tdiv (a + b) 2 = -Int.tdiv (-(a + b)) 2 := by
      rw [← Int.neg_tdiv]; ring_nf
    rw [h1, Int.tdiv_eq_ediv (by omega) (by norm_num)]
    omega

theorem childAxes_length : ∀ (la lb : List Int) (i : Nat), la.length = lb.length →
    (childAxes la lb i).1.length = la.length ∧ (childAxes la lb i).2.length = la.length := by
  intro la
  induction la with
  | nil =>
    intro lb i h
    cases lb with
    | nil => exact ⟨rfl, rfl⟩
    | cons b bs => simp at h
  | cons a as ih =>
    intro lb i h
    cases lb with
    | nil => simp at h
    | cons b bs =>
      simp only [List.length_cons, Nat.add_right_cancel_iff] at h
      have hr := ih bs (i / 2) h
      unfold childAxes
      by_cases hb : i % 2 = 1 <;> simp [hb, hr.1, hr.2]

theorem childAxes_get : ∀ (la lb : List Int) (i k : Nat), la.length = lb.length →
    k < la.length →
    (childAxes la lb i).1.get? k =
      (if Nat.testBit i k then la.get? k else (List.zipWith mid la lb).get? k)
    ∧ (childAxes la lb i).2.get? k =
      (if Nat.testBit i k then (List.zipWith mid la lb).get? k else lb.get? k) := by
  intro la
  induction la with
  | nil => intro lb i k _ hk; simp at hk
  | cons a as ih =>
    intro lb i k h hk
    cases lb with
    | nil => simp at h
    | cons b bs =>
      simp only [List.length_cons, Nat.add_right_cancel_iff] at h
      cases k with
      | zero =>
        unfold childAxes
        rcases Nat.mod_two_eq_zero_or_one i with hb | hb
        · have hbt : Nat.testBit i 0 = false := by
            rw [Nat.testBit_zero]; simp [hb]
          simp [hb, hbt, List.zipWith]
        · have hbt : Nat.testBit i 0 = true := by
            rw [Nat.testBit_zero]; simp [hb]
          simp [hb, hbt, List.zipWith]
      | succ k =>
        simp only [List.length_cons] at hk
        have hk2 : k < as.length := by omega
        have hr := ih bs (i / 2) k h hk2
        have hbt : Nat.testBit i (k + 1) = Nat.testBit (i / 2) k := Nat.testBit_succ i k
        unfold childAxes
        by_cases hb : i % 2 = 1 <;>
          simpa [hb, hbt, List.zipWith] using hr

theorem cellIn_child_cons (a b x : Int) (as bs xt : List Int) (i : Nat) :
    cellInAxes (childAxes (a :: as) (b :: bs) i).1 (childAxes (a :: as) (b :: bs) i).2
      (x :: xt) = true ↔
    ((if i % 2 = 1 then a ≤ x ∧ x < mid a b else mid a b ≤ x ∧ x < b)
      ∧ cellInAxes (childAxes as bs (i / 2)).1 (childAxes as bs (i / 2)).2 xt = true) := by
  rw [show childAxes (a :: as) (b :: bs) i =
      (if i % 2 = 1 then (a :: (childAxes as bs (i / 2)).1, mid a b :: (childAxes as bs (i / 2)).2)
       else (mid a b :: (childAxes as bs (i / 2)).1, b :: (childAxes as bs (i / 2)).2)) from rfl]
  by_cases hb : i % 2 = 1 <;>
    simp [hb, cellInAxes, Bool.and_eq_true, decide_eq_true_eq, and_assoc]

theorem whichChild_lt : ∀ (la lb xs : List Int), whichChild la lb xs < 2 ^ la.length := by
  intro la
  induction la with
  | nil =>
    intro lb xs
    cases lb <;> cases xs <;> simp [whichChild]
  | cons a as ih =>
    intro lb xs
    cases lb with
    | nil => simp [whichChild]
    | cons b bs =>
      cases xs with
      | nil => simp [whichChild]
      | cons x xt =>
        have hr := ih bs xt
        unfold whichChild
        have h2 : (2 : Nat) ^ (a :: as).length = 2 * 2 ^ as.length := by
          simp [List.length_cons, Nat.pow_succ]; ring
        rw [h2]
        by_cases hb : x < mid a b <;> simp [hb] <;> omega

theorem whichChild_mod (a b x : Int) (as bs xt : List Int) :
    whichChild (a :: as) (b :: bs) (x :: xt) % 2 = (if x < mid a b then 1 else 0)
    ∧ whichChild (a :: as) (b :: bs) (x :: xt) / 2 = whichChild as bs xt := by
  rw [show whichChild (a :: as) (b :: bs) (x :: xt) =
      (if x < mid a b then 1 else 0) + 2 * whichChild as bs xt from rfl]
  by_cases hb : x < mid a b <;> simp [hb] <;> omega

theorem whichChild_mem : ∀ (la lb xs : List Int), cellInAxes la lb xs = true →
    cellInAxes (childAxes la lb (whichChild la lb xs)).1
      (childAxes la lb (whichChild la lb xs)).2 xs = true := by
  intro la
  induction la with
  | nil =>
    intro lb xs h
    cases lb with
    | nil =>
      cases xs with
      | nil => exact rfl
      | cons x xt => simp [cellInAxes] at h
    | cons b bs => simp [cellInAxes] at h
  | cons a as ih =>
    intro lb xs h
    cases lb with
    | nil => simp [cellInAxes] at h
    | cons b bs =>
      cases xs with
      | nil => simp [cellInAxes] at h
      | cons x xt =>
        simp only [cellInAxes, Bool.and_eq_true, decide_eq_true_eq] at h
        obtain ⟨⟨hax, hxb⟩, ht⟩ := h
        rw [cellIn_child_cons, (whichChild_mod a b x as bs xt).1,
          (whichChild_mod a b x as bs xt).2]
        refine ⟨?_, ih bs xt ht⟩
        by_cases hb : x < mid a b <;> simp [hb]
        · exact hax
        · exact ⟨not_lt.mp hb, hxb⟩

theorem childMem_inj : ∀ (la lb xs : List Int) (i j : Nat), la.length = lb.length →
    i < 2 ^ la.length → j < 2 ^ la.length →
    cellInAxes (childAxes la lb i).1 (childAxes la lb i).2 xs = true →
    cellInAxes (childAxes la lb j).1 (childAxes la lb j).2 xs = true → i = j := by
  intro la
  induction la with
  | nil =>
    intro lb xs i j _ hi hj _ _
    simp at hi hj
    omega
  | cons a as ih =>
    intro lb xs i j h hi hj hmi hmj
    cases lb with
    | nil => simp at h
    | cons b bs =>
      simp only [List.length_cons, Nat.add_right_cancel_iff] at h
      cases xs with
      | nil =>
        rw [show childAxes (a :: as) (b :: bs) i =
          (if i % 2 = 1 then (a :: (childAxes as bs (i / 2)).1, mid a b :: (childAxes as bs (i / 2)).2)
           else (mid a b :: (childAxes as bs (i / 2)).1, b :: (childAxes as bs (i / 2)).2)) from rfl]
          at hmi
        by_cases hb : i % 2 = 1 <;> simp [hb, cellInAxes] at hmi
      | cons x xt =>
        rw [cellIn_child_cons] at hmi hmj
        obtain ⟨hbi, hti⟩ := hmi
        obtain ⟨hbj, htj⟩ := hmj
        have hpow : (2 : Nat) ^ (a :: as).length = 2 * 2 ^ as.length := by
          simp [List.length_cons, Nat.pow_succ]; ring
        rw [hpow] at hi hj
        have hdi : i / 2 < 2 ^ as.length := by omega
        have hdj : j / 2 < 2 ^ as.length := by omega
        have htl : i / 2 = j / 2 := ih bs xt (i / 2) (j / 2) h hdi hdj hti htj
        have hmod : i % 2 = j % 2 := by
          by_cases h1 : i % 2 = 1 <;> by_cases h2 : j % 2 = 1
          · omega
          · rw [if_pos h1] at hbi; rw [if_neg h2] at hbj; omega
          · rw [if_neg h1] at hbi; rw [if_pos h2] at hbj; omega
          · omega
        omega

theorem childMem_sub : ∀ (la lb xs : List Int) (i : Nat), ordAxes la lb = true →
    cellInAxes (childAxes la lb i).1 (childAxes la lb i).2 xs = true →
    cellInAxes la lb xs = true := by
  intro la
  induction la with
  | nil =>
    intro lb xs i ho hm
    cases lb with
    | nil =>
      cases xs with
      | nil => exact rfl
      | cons x xt => simp [cellInAxes] at hm
    | cons b bs => simp [ordAxes] at ho
  | cons a as ih =>
    intro lb xs i ho hm
    cases lb with
    | nil => simp [ordAxes] at ho
    | cons b bs =>
      simp only [ordAxes, Bool.and_eq_true, decide_eq_true_eq] at ho
      obtain ⟨hab, hot⟩ := ho
      cases xs with
      | nil =>
        rw [show childAxes (a :: as) (b :: bs) i =
          (if i % 2 = 1 then (a :: (childAxes as bs (i / 2)).1, mid a b :: (childAxes as bs (i / 2)).2)
           else (mid a b :: (childAxes as bs (i / 2)).1, b :: (childAxes as bs (i / 2)).2)) from rfl]
          at hm
        by_cases hb : i % 2 = 1 <;> simp [hb, cellInAxes] at hm
      | cons x xt =>
        rw [cellIn_child_cons] at hm
        obtain ⟨hbb, ht⟩ := hm
        have hmb := mid_between a b hab
        simp only [cellInAxes, Bool.and_eq_true, decide_eq_true_eq]
        refine ⟨⟨?_, ?_⟩, ih bs xt (i / 2) hot ht⟩
        · by_cases hb : i % 2 = 1
          · rw [if_pos hb] at hbb; exact hbb.1
          · rw [if_neg hb] at hbb; omega
        · by_cases hb : i % 2 = 1
          · rw [if_pos hb] at hbb; omega
          · rw [if_neg hb] at hbb; exact hbb.2



theorem volume_cons (x y : Int) (t1 t2 : List Int) :
    Cube.volume ⟨x :: t1, y :: t2⟩ = (y - x) * Cube.volume ⟨t1, t2⟩ := rfl

theorem sum_range_two_mul (m : Nat) (f : Nat → Int) :
    ∑ i ∈ Finset.range (2 * m), f i = ∑ i ∈ Finset.range m, (f (2 * i) + f (2 * i + 1)) := by
  induction m with
  | zero => simp
  | succ k ih =>
    have h : 2 * (k + 1) = 2 * k + 1 + 1 := by ring
    rw [h, Finset.sum_range_succ, Finset.sum_range_succ, ih, Finset.sum_range_succ]
    ring

theorem volSum : ∀ (la lb : List Int), la.length = lb.length →
    ∑ i ∈ Finset.range (2 ^ la.length),
      Cube.volume ⟨(childAxes la lb i).1, (childAxes la lb i).2⟩ = Cube.volume ⟨la, lb⟩ := by
  intro la
  induction la with
  | nil =>
    intro lb h
    cases lb with
    | nil => simp [childAxes]
    | cons b bs => simp at h
  | cons a as ih =>
    intro lb h
    cases lb with
    | nil => simp at h
    | cons b bs =>
      simp only [List.length_cons, Nat.add_right_cancel_iff] at h
      have hpow : (2 : Nat) ^ (a :: as).length = 2 * 2 ^ as.length := by
        simp [List.length_cons, Nat.pow_succ]; ring
      rw [hpow, sum_range_two_mul]
      have heven : ∀ i : Nat, childAxes (a :: as) (b :: bs) (2 * i) =
          (mid a b :: (childAxes as bs i).1, b :: (childAxes as bs i).2) := by
        intro i
        rw [show childAxes (a :: as) (b :: bs) (2 * i) =
            (if (2 * i) % 2 = 1 then
              (a :: (childAxes as bs (2 * i / 2)).1, mid a b :: (childAxes as bs (2 * i / 2)).2)
             else
              (mid a b :: (childAxes as bs (2 * i / 2)).1, b :: (childAxes as bs (2 * i / 2)).2))
          from rfl]
        have h1 : (2 * i) % 2 = 0 := by omega
        have h2 : 2 * i / 2 = i := by omega
        simp [h1, h2]
      have hodd : ∀ i : Nat, childAxes (a :: as) (b :: bs) (2 * i + 1) =
          (a :: (childAxes as bs i).1, mid a b :: (childAxes as bs i).2) := by
        intro i
        rw [show childAxes (a :: as) (b :: bs) (2 * i + 1) =
            (if (2 * i + 1) % 2 = 1 then
              (a :: (childAxes as bs ((2 * i + 1) / 2)).1,
                mid a b :: (childAxes as bs ((2 * i + 1) / 2)).2)
             else
              (mid a b :: (childAxes as bs ((2 * i + 1) / 2)).1,
                b :: (childAxes as bs ((2 * i + 1) / 2)).2))
          from rfl]
        have h1 : (2 * i + 1) % 2 = 1 := by omega
        have h2 : (2 * i + 1) / 2 = i := by omega
        simp [h1, h2]
      have hterm : ∀ i : Nat,
          Cube.volume ⟨(childAxes (a :: as) (b :: bs) (2 * i)).1,
            (childAxes (a :: as) (b :: bs) (2 * i)).2⟩
          + Cube.volume ⟨(childAxes (a :: as) (b :: bs) (2 * i + 1)).1,
            (childAxes (a :: as) (b :: bs) (2 * i + 1)).2⟩
          = (b - a) * Cube.volume ⟨(childAxes as bs i).1, (childAxes as bs i).2⟩ := by
        intro i
        rw [heven i, hodd i]
        rw [volume_cons, volume_cons]
        ring
      calc ∑ i ∈ Finset.range (2 ^ as.length),
            (Cube.volume ⟨(childAxes (a :: as) (b :: bs) (2 * i)).1,
              (childAxes (a :: as) (b :: bs) (2 * i)).2⟩
            + Cube.volume ⟨(childAxes (a :: as) (b :: bs) (2 * i + 1)).1,
              (childAxes (a :: as) (b :: bs) (2 * i + 1)).2⟩)
          = ∑ i ∈ Finset.range (2 ^ as.length),
              (b - a) * Cube.volume ⟨(childAxes as bs i).1, (childAxes as bs i).2⟩ := by
            exact Finset.sum_congr rfl fun i _ => hterm i
        _ = (b - a) * ∑ i ∈ Finset.range (2 ^ as.length),
              Cube.volume ⟨(childAxes as bs i).1, (childAxes as bs i).2⟩ := by
            rw [Finset.mul_sum]
        _ = (b - a) * Cube.volume ⟨as, bs⟩ := by rw [ih bs h]
        _ = Cube.volume ⟨a :: as, b :: bs⟩ := by rw [volume_cons]



/-- C8: confirmed. For every cube with l <= r on each of its n axes,
Subdivide yields exactly 2^n children; the child for bit pattern i takes
[l,m) on axis k when bit k of i is set and [m,r) otherwise (m the per-axis
midpoint); every cell of the parent lies in exactly one child (so the
children are pairwise disjoint cell sets covering the parent); and the child
volumes sum to the parent volume. -/
theorem c8_subdivide_partition (n : Nat) (q : Cube) (hl : q.l.length = n)
    (hr : q.r.length = n) (hord : ordAxes q.l q.r = true) :
    (q.subdivide n).length = 2 ^ n
    ∧ (∀ i k, k < n →
        (q.child i).l.get? k = (if Nat.testBit i k then q.l.get? k else q.center.get? k)
        ∧ (q.child i).r.get? k = (if Nat.testBit i k then q.center.get? k else q.r.get? k))
    ∧ (∀ c : List Int, q.containsCell c = true ↔
        ∃! i, i < 2 ^ n ∧ (q.child i).containsCell c = true)
    ∧ ∑ i ∈ Finset.range (2 ^ n), (q.child i).volume = q.volume := by
  have hlen : q.l.length = q.r.length := by rw [hl, hr]
  refine ⟨by simp [Cube.subdivide], ?_, ?_, ?_⟩
  · intro i k hk
    have h := childAxes_get q.l q.r i k hlen (by rw [hl]; exact hk)
    exact ⟨h.1, h.2⟩
  · intro c
    constructor
    · intro hc
      refine ⟨whichChild q.l q.r c, ⟨?_, whichChild_mem q.l q.r c hc⟩, ?_⟩
      · have h := whichChild_lt q.l q.r c
        rwa [hl] at h
      · rintro j ⟨hj1, hj2⟩
        refine childMem_inj q.l q.r c j (whichChild q.l q.r c) hlen ?_ ?_ hj2
          (whichChild_mem q.l q.r c hc)
        · rwa [hl]
        · exact whichChild_lt q.l q.r c
    · rintro ⟨i, ⟨_, hm⟩, _⟩
      exact childMem_sub q.l q.r c i hord hm
  · have h := volSum q.l q.r hlen
    rw [hl] at h
    simpa [Cube.child] using h

/-- C8 witness: the partition facts instantiated at the two-dimensional cube
[-3,4) x [0,2) used as the example in the source. -/
theorem c8_subdivide_witness :
    ((Cube.mk [-3, 0] [4, 2]).subdivide 2).length = 2 ^ 2
    ∧ (∀ i k, k < 2 →
        ((Cube.mk [-3, 0] [4, 2]).child i).l.get? k =
          (if Nat.testBit i k then (Cube.mk [-3, 0] [4, 2]).l.get? k
           else (Cube.mk [-3, 0] [4, 2]).center.get? k)
        ∧ ((Cube.mk [-3, 0] [4, 2]).child i).r.get? k =
          (if Nat.testBit i k then (Cube.mk [-3, 0] [4, 2]).center.get? k
           else (Cube.mk [-3, 0] [4, 2]).r.get? k))
    ∧ (∀ c : List Int, (Cube.mk [-3, 0] [4, 2]).containsCell c = true ↔
        ∃! i, i < 2 ^ 2 ∧ ((Cube.mk [-3, 0] [4, 2]).child i).containsCell c = true)
    ∧ ∑ i ∈ Finset.range (2 ^ 2), ((Cube.mk [-3, 0] [4, 2]).child i).volume =
        (Cube.mk [-3, 0] [4, 2]).volume :=
  c8_subdivide_partition 2 ⟨[-3, 0], [4, 2]⟩ rfl rfl (by decide)



theorem mem_enumFrom {α : Type} : ∀ (l : List α) (k : Nat) (p : Nat × α),
    p ∈ List.enumFrom k l → ∃ d, d < l.length ∧ p.1 = k + d ∧ l.get? d = some p.2 := by
  intro l
  induction l with
  | nil => intro k p h; simp at h
  | cons a t ih =>
    intro k p h
    rw [show List.enumFrom k (a :: t) = (k, a) :: List.enumFrom (k + 1) t from rfl] at h
    rcases List.mem_cons.mp h with h1 | h1
    · exact ⟨0, by simp, by rw [h1]; simp, by rw [h1]; rfl⟩
    · obtain ⟨d, hd, hp1, hp2⟩ := ih (k + 1) p h1
      exact ⟨d + 1, by simpa using hd, by omega, by simpa using hp2⟩

theorem mem_enum_subdivide (n : Nat) (q : Cube) (p : Nat × Cube)
    (h : p ∈ (q.subdivide n).enum) : p.1 < 2 ^ n ∧ p.2 = q.child p.1 := by
  obtain ⟨d, hd, hp1, hp2⟩ := mem_enumFrom _ 0 p h
  simp only [Cube.subdivide, List.length_map, List.length_range] at hd
  have h1 : p.1 = d := by omega
  rw [Cube.subdivide, List.get?_map, List.get?_range hd] at hp2
  simp only [Option.map_some'] at hp2
  refine ⟨by omega, ?_⟩
  have h2 : q.child d = p.2 := Option.some.inj hp2
  rw [h1, h2]

theorem le_maxIdx (n : Nat) : ∀ (j v : Nat), v ≤ maxIdx n v j := by
  intro j
  induction j with
  | zero => intro v; exact le_refl v
  | succ j ih =>
    intro v
    have h1 : v ≤ 2 ^ n * v + 2 ^ n :=
      le_trans (Nat.le_mul_of_pos_left v (show 0 < 2 ^ n by positivity)) (Nat.le_add_right _ _)
    exact le_trans h1 (ih (2 ^ n * v + 2 ^ n))

theorem maxIdx_mono (n : Nat) : ∀ (j v w : Nat), v ≤ w → maxIdx n v j ≤ maxIdx n w j := by
  intro j
  induction j with
  | zero => intro v w h; exact h
  | succ j ih =>
    intro v w h
    have h1 : 2 ^ n * v + 2 ^ n ≤ 2 ^ n * w + 2 ^ n :=
      Nat.add_le_add_right (Nat.mul_le_mul_left (2 ^ n) h) _
    exact ih _ _ h1

theorem maxIdx_le_succ (n j v : Nat) : maxIdx n v j ≤ maxIdx n v (j + 1) := by
  show maxIdx n v j ≤ maxIdx n (2 ^ n * v + 2 ^ n) j
  refine maxIdx_mono n j v (2 ^ n * v + 2 ^ n) ?_
  exact le_trans (Nat.le_mul_of_pos_left v (show 0 < 2 ^ n by positivity)) (Nat.le_add_right _ _)

theorem maxIdx_le_of_le (n : Nat) : ∀ (d j v : Nat), maxIdx n v j ≤ maxIdx n v (j + d) := by
  intro d
  induction d with
  | zero => intro j v; exact le_refl _
  | succ d ih =>
    intro j v
    have h1 := ih j v
    have h2 := maxIdx_le_succ n (j + d) v
    calc maxIdx n v j ≤ maxIdx n v (j + d) := h1
      _ ≤ maxIdx n v (j + d + 1) := h2

theorem maxIdx_bound (n : Nat) (hn : 1 ≤ n) : ∀ (j v : Nat),
    maxIdx n v j + 2 ≤ 2 ^ (j * n) * (v + 2) := by
  intro j
  induction j with
  | zero =>
    intro v
    show v + 2 ≤ 2 ^ (0 * n) * (v + 2)
    simp
  | succ j ih =>
    intro v
    have h1 := ih (2 ^ n * v + 2 ^ n)
    have h2 : (2 : Nat) ≤ 2 ^ n := by
      calc (2 : Nat) = 2 ^ 1 := by norm_num
        _ ≤ 2 ^ n := Nat.pow_le_pow_right (by norm_num) hn
    have h3 : 2 ^ (j * n) * (2 ^ n * v + 2 ^ n + 2) ≤ 2 ^ (j * n) * (2 ^ n * (v + 2)) := by
      refine Nat.mul_le_mul_left _ ?_
      have h4 : 2 ^ n * (v + 2) = 2 ^ n * v + 2 ^ n * 2 := by ring
      rw [h4]
      omega
    have h5 : (2 : Nat) ^ (j * n) * 2 ^ n = 2 ^ ((j + 1) * n) := by
      rw [← pow_add]
      congr 1
      ring
    calc maxIdx n (2 ^ n * v + 2 ^ n) j + 2 ≤ 2 ^ (j * n) * (2 ^ n * v + 2 ^ n + 2) := h1
      _ ≤ 2 ^ (j * n) * (2 ^ n * (v + 2)) := h3
      _ = 2 ^ ((j + 1) * n) * (v + 2) := by rw [← mul_assoc, h5]

theorem unif_child (j : Nat) : ∀ (la lb : List Int), unifAxes (j + 1) la lb →
    ∀ i, unifAxes j (childAxes la lb i).1 (childAxes la lb i).2 := by
  intro la lb h
  induction h with
  | nil => intro i; exact List.Forall₂.nil
  | @cons a b as bs hab ht ih =>
    intro i
    have hm : mid a b = a + 2 ^ j := by
      rw [hab]
      show Int.tdiv (a + (a + 2 ^ (j + 1))) 2 = a + 2 ^ j
      have he : a + (a + 2 ^ (j + 1)) = 2 * (a + 2 ^ j) := by ring
      rw [he, Int.mul_tdiv_cancel_left _ (by norm_num)]
    rw [show childAxes (a :: as) (b :: bs) i =
        (if i % 2 = 1 then (a :: (childAxes as bs (i / 2)).1, mid a b :: (childAxes as bs (i / 2)).2)
         else (mid a b :: (childAxes as bs (i / 2)).1, b :: (childAxes as bs (i / 2)).2)) from rfl]
    by_cases hb : i % 2 = 1
    · rw [if_pos hb]
      exact List.Forall₂.cons (by rw [hm]) (ih (i / 2))
    · rw [if_neg hb]
      refine List.Forall₂.cons ?_ (ih (i / 2))
      rw [hm, hab]
      ring
  
theorem unif_volume (j : Nat) : ∀ (la lb : List Int), unifAxes j la lb →
    Cube.volume ⟨la, lb⟩ = 2 ^ (j * la.length) := by
  intro la lb h
  induction h with
  | nil => simp [Cube.volume]
  | @cons a b as bs hab ht ih =>
    rw [volume_cons, ih, hab]
    have h1 : a + 2 ^ j - a = (2 : Int) ^ j := by ring
    rw [h1, ← pow_add]
    congr 1
    simp [List.length_cons]
    ring

theorem unif_replicate (n k : Nat) :
    unifAxes k (List.replicate n 0) (List.replicate n ((2 : Int) ^ k)) := by
  induction n with
  | zero => exact List.Forall₂.nil
  | succ m ih =>
    rw [List.replicate_succ, List.replicate_succ]
    exact List.Forall₂.cons (by ring) ih

theorem buildNodes_bound (n : Nat) : ∀ (fuel j : Nat) (dom : Cube) (v : Nat),
    unifAxes j dom.l dom.r → ∀ w ∈ buildNodes n fuel dom v, w ≤ maxIdx n v j := by
  intro fuel
  induction fuel with
  | zero => intro j dom v _ w hw; simp [buildNodes] at hw
  | succ f ih =>
    intro j dom v hu w hw
    rw [show buildNodes n (f + 1) dom v =
        (if dom.isPoint then [v]
         else v :: ((dom.subdivide n).enum.map fun p =>
            buildNodes n f p.2 (child n v p.1)).flatten) from rfl] at hw
    by_cases hp : dom.isPoint
    · rw [if_pos hp] at hw
      simp at hw
      rw [hw]
      exact le_maxIdx n j v
    · rw [if_neg hp] at hw
      rcases List.mem_cons.mp hw with h1 | h1
      · rw [h1]; exact le_maxIdx n j v
      · rw [List.mem_flatten] at h1
        obtain ⟨l, hl, hwl⟩ := h1
        rw [List.mem_map] at hl
        obtain ⟨p, hp2, hl2⟩ := hl
        obtain ⟨hplt, hpc⟩ := mem_enum_subdivide n dom p hp2
        cases j with
        | zero =>
          exfalso
          have hv := unif_volume 0 dom.l dom.r hu
          simp only [Nat.zero_mul, pow_zero] at hv
          have : Cube.isPoint dom = true := by
            show (Cube.volume dom == 1) = true
            have : Cube.volume dom = 1 := hv
            rw [this]
            rfl
          exact hp this
        | succ j2 =>
          have hcu : unifAxes j2 (dom.child p.1).l (dom.child p.1).r :=
            unif_child j2 dom.l dom.r hu p.1
          rw [hpc] at hl2
          rw [← hl2] at hwl
          have h2 := ih j2 (dom.child p.1) (child n v p.1) hcu w hwl
          have h3 : child n v p.1 ≤ 2 ^ n * v + 2 ^ n := by
            show 2 ^ n * v + p.1 + 1 ≤ 2 ^ n * v + 2 ^ n
            omega
          calc w ≤ maxIdx n (child n v p.1) j2 := h2
            _ ≤ maxIdx n (2 ^ n * v + 2 ^ n) j2 := maxIdx_mono n j2 _ _ h3
            _ = maxIdx n v (j2 + 1) := rfl



theorem interAxes_length : ∀ (la lb ma mb : List Int), la.length = lb.length →
    la.length = ma.length → ma.length = mb.length →
    (interAxes la lb ma mb).1.length = la.length
    ∧ (interAxes la lb ma mb).2.length = la.length := by
  intro la
  induction la with
  | nil =>
    intro lb ma mb _ _ _
    exact ⟨rfl, rfl⟩
  | cons a1 as1 ih =>
    intro lb ma mb h1 h2 h3
    cases lb with
    | nil => simp at h1
    | cons b1 bs1 =>
      cases ma with
      | nil => simp at h2
      | cons a2 as2 =>
        cases mb with
        | nil => simp at h3
        | cons b2 bs2 =>
          simp only [List.length_cons, Nat.add_right_cancel_iff] at h1 h2 h3
          have hr := ih bs1 as2 bs2 h1 h2 h3
          rw [show interAxes (a1 :: as1) (b1 :: bs1) (a2 :: as2) (b2 :: bs2) =
              (if min b1 b2 ≤ max a1 a2
               then (0 :: (interAxes as1 bs1 as2 bs2).1, 0 :: (interAxes as1 bs1 as2 bs2).2)
               else (max a1 a2 :: (interAxes as1 bs1 as2 bs2).1,
                 min b1 b2 :: (interAxes as1 bs1 as2 bs2).2)) from rfl]
          by_cases hc : min b1 b2 ≤ max a1 a2 <;> simp [hc, hr.1, hr.2]

theorem interAxes_ord : ∀ (la lb ma mb : List Int),
    ordAxes (interAxes la lb ma mb).1 (interAxes la lb ma mb).2 = true := by
  intro la
  induction la with
  | nil => intro lb ma mb; rfl
  | cons a1 as1 ih =>
    intro lb ma mb
    cases lb with
    | nil => rfl
    | cons b1 bs1 =>
      cases ma with
      | nil => rfl
      | cons a2 as2 =>
        cases mb with
        | nil => rfl
        | cons b2 bs2 =>
          rw [show interAxes (a1 :: as1) (b1 :: bs1) (a2 :: as2) (b2 :: bs2) =
              (if min b1 b2 ≤ max a1 a2
               then (0 :: (interAxes as1 bs1 as2 bs2).1, 0 :: (interAxes as1 bs1 as2 bs2).2)
               else (max a1 a2 :: (interAxes as1 bs1 as2 bs2).1,
                 min b1 b2 :: (interAxes as1 bs1 as2 bs2).2)) from rfl]
          by_cases hc : min b1 b2 ≤ max a1 a2
          · rw [if_pos hc]
            show (decide ((0 : Int) ≤ 0) && ordAxes (interAxes as1 bs1 as2 bs2).1
              (interAxes as1 bs1 as2 bs2).2) = true
            simp only [Bool.and_eq_true, decide_eq_true_eq]
            exact ⟨le_refl 0, ih bs1 as2 bs2⟩
          · rw [if_neg hc]
            show (decide (max a1 a2 ≤ min b1 b2) && ordAxes (interAxes as1 bs1 as2 bs2).1
              (interAxes as1 bs1 as2 bs2).2) = true
            simp only [Bool.and_eq_true, decide_eq_true_eq]
            exact ⟨(not_le.mp hc).le, ih bs1 as2 bs2⟩

theorem interAxes_sub : ∀ (la lb ma mb : List Int), la.length = lb.length →
    la.length = ma.length → ma.length = mb.length →
    Cube.volume ⟨(interAxes la lb ma mb).1, (interAxes la lb ma mb).2⟩ ≠ 0 →
    contAxes (interAxes la lb ma mb).1 (interAxes la lb ma mb).2 la lb = true := by
  intro la
  induction la with
  | nil =>
    intro lb ma mb h1 h2 h3 _
    cases lb with
    | cons x xs => simp at h1
    | nil =>
      cases ma with
      | cons x xs => simp at h2
      | nil =>
        cases mb with
        | cons x xs => simp at h3
        | nil => rfl
  | cons a1 as1 ih =>
    intro lb ma mb h1 h2 h3 hv
    cases lb with
    | nil => simp at h1
    | cons b1 bs1 =>
      cases ma with
      | nil => simp at h2
      | cons a2 as2 =>
        cases mb with
        | nil => simp at h3
        | cons b2 bs2 =>
          simp only [List.length_cons, Nat.add_right_cancel_iff] at h1 h2 h3
          rw [show interAxes (a1 :: as1) (b1 :: bs1) (a2 :: as2) (b2 :: bs2) =
              (if min b1 b2 ≤ max a1 a2
               then (0 :: (interAxes as1 bs1 as2 bs2).1, 0 :: (interAxes as1 bs1 as2 bs2).2)
               else (max a1 a2 :: (interAxes as1 bs1 as2 bs2).1,
                 min b1 b2 :: (interAxes as1 bs1 as2 bs2).2)) from rfl] at hv ⊢
          by_cases hc : min b1 b2 ≤ max a1 a2
          · exfalso
            rw [if_pos hc] at hv
            rw [volume_cons] at hv
            simp at hv
          · rw [if_neg hc] at hv ⊢
            rw [volume_cons] at hv
            have hvt : Cube.volume ⟨(interAxes as1 bs1 as2 bs2).1,
                (interAxes as1 bs1 as2 bs2).2⟩ ≠ 0 := by
              intro h0
              rw [h0] at hv
              simp at hv
            show (decide (a1 ≤ max a1 a2) && decide (min b1 b2 ≤ b1) &&
              contAxes (interAxes as1 bs1 as2 bs2).1 (interAxes as1 bs1 as2 bs2).2 as1 bs1) = true
            simp only [Bool.and_eq_true, decide_eq_true_eq]
            exact ⟨⟨le_max_left a1 a2, min_le_left b1 b2⟩, ih bs1 as2 bs2 h1 h2 h3 hvt⟩

theorem contained_point_eq : ∀ (ma mb : List Int), unifAxes 0 ma mb →
    ∀ (la lb : List Int), la.length = ma.length → lb.length = mb.length →
    ordAxes la lb = true → Cube.volume ⟨la, lb⟩ ≠ 0 → contAxes la lb ma mb = true →
    la = ma ∧ lb = mb := by
  intro ma mb h
  induction h with
  | nil =>
    intro la lb h1 h2 _ _ _
    simp only [List.length_nil, List.length_eq_zero] at h1 h2
    exact ⟨h1, h2⟩
  | @cons a b as bs hab ht ih =>
    intro la lb h1 h2 ho hv hc
    cases la with
    | nil => simp at h1
    | cons x xs =>
      cases lb with
      | nil => simp at h2
      | cons y ys =>
        simp only [List.length_cons, Nat.add_right_cancel_iff] at h1 h2
        rw [show ordAxes (x :: xs) (y :: ys) = (decide (x ≤ y) && ordAxes xs ys) from rfl] at ho
        rw [show contAxes (x :: xs) (y :: ys) (a :: as) (b :: bs) =
            (decide (a ≤ x) && decide (y ≤ b) && contAxes xs ys as bs) from rfl] at hc
        simp only [Bool.and_eq_true, decide_eq_true_eq] at ho hc
        rw [volume_cons] at hv
        have hvt : Cube.volume ⟨xs, ys⟩ ≠ 0 := by
          intro h0; rw [h0] at hv; simp at hv
        have hvh : y - x ≠ 0 := by
          intro h0; rw [h0] at hv; simp at hv
        have hr := ih xs ys h1 h2 ho.2 hvt hc.2
        have hb1 : b = a + 1 := by simpa using hab
        have hx : x = a ∧ y = b := by omega
        rw [hr.1, hr.2, hx.1, hx.2]
        exact ⟨rfl, rfl⟩

theorem rangeNodes_bound (n : Nat) : ∀ (fuel j : Nat) (Q dom : Cube) (v : Nat),
    unifAxes j dom.l dom.r → Q.l.length = dom.l.length → Q.r.length = dom.r.length →
    ordAxes Q.l Q.r = true → Q.isEmpty = false →
    contAxes Q.l Q.r dom.l dom.r = true →
    ∀ w ∈ rangeNodes n fuel Q v dom, w ≤ maxIdx n v j := by
  intro fuel
  induction fuel with
  | zero => intro j Q dom v _ _ _ _ _ _ w hw; simp [rangeNodes] at hw
  | succ f ih =>
    intro j Q dom v hu hl hr ho he hc w hw
    rw [show rangeNodes n (f + 1) Q v dom =
        (if Q = dom then [v]
         else v :: (((dom.subdivide n).enum.map fun p => child n v p.1) ++
           ((dom.subdivide n).enum.map fun p =>
             if (p.2.inter Q).isEmpty then []
             else rangeNodes n f (p.2.inter Q) (child n v p.1) p.2).flatten)) from rfl] at hw
    by_cases heq : Q = dom
    · rw [if_pos heq] at hw
      simp at hw
      rw [hw]
      exact le_maxIdx n j v
    · rw [if_neg heq] at hw
      have hdlen : dom.l.length = dom.r.length := List.Forall₂.length_eq hu
      have hvq : Cube.volume ⟨Q.l, Q.r⟩ ≠ 0 := by
        intro h0
        rw [show Cube.isEmpty Q = (Cube.volume Q == 0) from rfl] at he
        rw [show Cube.volume Q = Cube.volume ⟨Q.l, Q.r⟩ from rfl, h0] at he
        simp at he
      cases j with
      | zero =>
        exfalso
        have := contained_point_eq dom.l dom.r hu Q.l Q.r hl hr ho hvq hc
        apply heq
        obtain ⟨ql, qr⟩ := Q
        obtain ⟨dl, dr⟩ := dom
        simp only at this
        rw [this.1, this.2]
      | succ j2 =>
        rcases List.mem_cons.mp hw with h1 | h1
        · rw [h1]; exact le_maxIdx n (j2 + 1) v
        · rcases List.mem_append.mp h1 with h2 | h2
          · rw [List.mem_map] at h2
            obtain ⟨p, hp2, hw2⟩ := h2
            obtain ⟨hplt, _⟩ := mem_enum_subdivide n dom p hp2
            have h3 : w ≤ 2 ^ n * v + 2 ^ n := by
              rw [← hw2]
              show 2 ^ n * v + p.1 + 1 ≤ 2 ^ n * v + 2 ^ n
              omega
            calc w ≤ 2 ^ n * v + 2 ^ n := h3
              _ = maxIdx n v 1 := rfl
              _ ≤ maxIdx n v (1 + j2) := maxIdx_le_of_le n j2 1 v
              _ = maxIdx n v (j2 + 1) := by rw [Nat.add_comm]
          · rw [List.mem_flatten] at h2
            obtain ⟨l, hl2, hwl⟩ := h2
            rw [List.mem_map] at hl2
            obtain ⟨p, hp2, hl3⟩ := hl2
            obtain ⟨hplt, hpc⟩ := mem_enum_subdivide n dom p hp2
            by_cases hie : (p.2.inter Q).isEmpty
            · rw [if_pos hie] at hl3
              rw [← hl3] at hwl
              simp at hwl
            · rw [if_neg hie] at hl3
              rw [← hl3] at hwl
              have hcd : p.2 = dom.child p.1 := hpc
              have hqlen : p.2.l.length = dom.l.length ∧ p.2.r.length = dom.l.length := by
                rw [hcd]
                exact childAxes_length dom.l dom.r p.1 hdlen
              have hcu : unifAxes j2 p.2.l p.2.r := by
                rw [hcd]
                exact unif_child j2 dom.l dom.r hu p.1
              have e1 : p.2.l.length = p.2.r.length := by rw [hqlen.1, hqlen.2]
              have e2 : p.2.l.length = Q.l.length := by rw [hqlen.1, hl]
              have e3 : Q.l.length = Q.r.length := by rw [hl, hr, ← hdlen]
              have hil := interAxes_length p.2.l p.2.r Q.l Q.r e1 e2 e3
              have hqe : (p.2.inter Q).isEmpty = false := by
                simp only [Bool.not_eq_true] at hie
                exact hie
              have hvi : Cube.volume ⟨(p.2.inter Q).l, (p.2.inter Q).r⟩ ≠ 0 := by
                simp only [Cube.isEmpty, beq_iff_eq] at hqe
                intro h0
                rw [show Cube.volume (p.2.inter Q) =
                  Cube.volume ⟨(p.2.inter Q).l, (p.2.inter Q).r⟩ from rfl, h0] at hqe
                simp at hqe
              have hsub : contAxes (p.2.inter Q).l (p.2.inter Q).r p.2.l p.2.r = true :=
                interAxes_sub p.2.l p.2.r Q.l Q.r e1 e2 e3 hvi
              have hio : ordAxes (p.2.inter Q).l (p.2.inter Q).r = true :=
                interAxes_ord p.2.l p.2.r Q.l Q.r
              have h4 := ih j2 (p.2.inter Q) p.2 (child n v p.1) hcu
                (by show (interAxes p.2.l p.2.r Q.l Q.r).1.length = p.2.l.length; rw [hil.1])
                (by show (interAxes p.2.l p.2.r Q.l Q.r).2.length = p.2.r.length
                    rw [hil.2]; exact e1)
                hio hqe hsub w hwl
              have h5 : child n v p.1 ≤ 2 ^ n * v + 2 ^ n := by
                show 2 ^ n * v + p.1 + 1 ≤ 2 ^ n * v + 2 ^ n
                omega
              calc w ≤ maxIdx n (child n v p.1) j2 := h4
                _ ≤ maxIdx n (2 ^ n * v + 2 ^ n) j2 := maxIdx_mono n j2 _ _ h5
                _ = maxIdx n v (j2 + 1) := rfl



/-- C5 amended: when every per-axis extent equals one common power of two,
the 4 x volume allocation is sufficient: every node index handed to the
recursion during construction, and every node index read or written during a
range apply/query on a nonempty domain contained per-axis in the entire
domain, is strictly below 4 * volume(entire_domain). -/
theorem c5_uniform_bound_amended (n k : Nat) :
    (entireDomain n (List.replicate n ((2 : Int) ^ k))).volume = 2 ^ (k * n)
    ∧ (∀ fuel w, w ∈ buildNodes n fuel (entireDomain n (List.replicate n ((2 : Int) ^ k))) 0 →
        w < 4 * 2 ^ (k * n))
    ∧ (∀ fuel (Q : Cube) w, Q.l.length = n → Q.r.length = n → ordAxes Q.l Q.r = true →
        Q.isEmpty = false →
        Q.containedIn (entireDomain n (List.replicate n ((2 : Int) ^ k))) = true →
        w ∈ rangeNodes n fuel Q 0 (entireDomain n (List.replicate n ((2 : Int) ^ k))) →
        w < 4 * 2 ^ (k * n)) := by
  have hu : unifAxes k (entireDomain n (List.replicate n ((2 : Int) ^ k))).l
      (entireDomain n (List.replicate n ((2 : Int) ^ k))).r := unif_replicate n k
  have hlen : (entireDomain n (List.replicate n ((2 : Int) ^ k))).l.length = n := by
    simp [entireDomain]
  refine ⟨?_, ?_, ?_⟩
  · have h1 := unif_volume k _ _ hu
    rw [hlen] at h1
    exact h1
  · intro fuel w hw
    rcases Nat.eq_zero_or_pos n with hn | hn
    · subst hn
      cases fuel with
      | zero => simp [buildNodes] at hw
      | succ f =>
        rw [show buildNodes 0 (f + 1) (entireDomain 0 (List.replicate 0 ((2 : Int) ^ k))) 0
            = [0] from rfl] at hw
        simp at hw
        rw [hw]
        have : k * 0 = 0 := by ring
        rw [this]
        norm_num
    · have h1 := buildNodes_bound n fuel k _ 0 hu w hw
      have h2 := maxIdx_bound n hn k 0
      have h3 : 1 ≤ 2 ^ (k * n) := Nat.one_le_two_pow
      omega
  · intro fuel Q w hql hqr ho he hcont hw
    rcases Nat.eq_zero_or_pos n with hn | hn
    · subst hn
      obtain ⟨ql, qr⟩ := Q
      simp only at hql hqr
      rw [List.length_eq_zero] at hql hqr
      subst hql
      subst hqr
      cases fuel with
      | zero => simp [rangeNodes] at hw
      | succ f =>
        rw [show rangeNodes 0 (f + 1) ⟨[], []⟩ 0
            (entireDomain 0 (List.replicate 0 ((2 : Int) ^ k))) = [0] from rfl] at hw
        simp at hw
        rw [hw]
        have : k * 0 = 0 := by ring
        rw [this]
        norm_num
    · have h1 := rangeNodes_bound n fuel k Q
        (entireDomain n (List.replicate n ((2 : Int) ^ k))) 0 hu
        (by rw [hql, hlen]) (by rw [hqr]; simp [entireDomain]) ho he hcont w hw
      have h2 := maxIdx_bound n hn k 0
      have h3 : 1 ≤ 2 ^ (k * n) := Nat.one_le_two_pow
      omega

/-- C5 witness: node index 2 is touched by a query of the unit cell [0,1)
over the uniform entire domain [0,2), and the amended bound applies to it. -/
theorem c5_uniform_bound_witness :
    (2 ∈ rangeNodes 1 4 ⟨[0], [1]⟩ 0 (entireDomain 1 (List.replicate 1 ((2 : Int) ^ 1))))
    ∧ 2 < 4 * 2 ^ (1 * 1) :=
  ⟨by decide,
    (c5_uniform_bound_amended 1 1).2.2 4 ⟨[0], [1]⟩ 2 rfl rfl (by decide) (by decide)
      (by decide) (by decide)⟩



theorem upd_at {α : Type} (f : Nat → α) (v : Nat) (x : α) : upd f v x v = x := by
  simp [upd]

theorem upd_ne {α : Type} (f : Nat → α) (v w : Nat) (x : α) (h : w ≠ v) : upd f v x w = f w := by
  simp [upd, h]

theorem upd_self {α : Type} (f : Nat → α) (v : Nat) : upd f v (f v) = f := by
  funext w
  by_cases h : w = v <;> simp [upd, h]

theorem compose_identity (x : Op) : x.composeWith Op.identity = x := by
  cases x
  simp [Op.composeWith, Op.identity]

theorem evaluate_identity (val : Int) (dom : Cube) : Op.identity.evaluate val dom = val := by
  simp [Op.evaluate, Op.identity]

theorem child_gt (n v i : Nat) : v < child n v i := by
  have h1 : v ≤ 2 ^ n * v := Nat.le_mul_of_pos_left v (by positivity)
  show v < 2 ^ n * v + i + 1
  omega

theorem child_inj (n v i j : Nat) (h : child n v i = child n v j) : i = j := by
  simp only [child] at h
  omega

theorem desc_le (n : Nat) : ∀ (u w : Nat), Desc n u w → u ≤ w := by
  intro u w h
  induction h with
  | refl v => exact le_refl v
  | step v i w hi hd ih => exact le_trans (le_of_lt (child_gt n v i)) ih

theorem parent_of_child (n v i : Nat) (hi : i < 2 ^ n) : (child n v i - 1) / 2 ^ n = v := by
  show (2 ^ n * v + i + 1 - 1) / 2 ^ n = v
  have h1 : 2 ^ n * v + i + 1 - 1 = 2 ^ n * v + i := by omega
  rw [h1, Nat.mul_add_div (by positivity)]
  have h2 : i / 2 ^ n = 0 := Nat.div_eq_of_lt hi
  omega

theorem desc_parent (n : Nat) : ∀ (u w : Nat), Desc n u w →
    u = w ∨ (1 ≤ w ∧ Desc n u ((w - 1) / 2 ^ n)) := by
  intro u w h
  induction h with
  | refl v => exact Or.inl rfl
  | step v i w hi hd ih =>
    rcases ih with h1 | h1
    · right
      constructor
      · rw [← h1]
        show 1 ≤ 2 ^ n * v + i + 1
        omega
      · rw [← h1, parent_of_child n v i hi]
        exact Desc.refl v
    · right
      exact ⟨h1.1, Desc.step v i _ hi h1.2⟩

theorem desc_sibling (n v : Nat) : ∀ (w i j : Nat), i < 2 ^ n → j < 2 ^ n → i ≠ j →
    Desc n (child n v i) w → Desc n (child n v j) w → False := by
  intro w
  induction w using Nat.strong_induction_on with
  | _ w ih =>
    intro i j hi hj hij hdi hdj
    rcases desc_parent n _ _ hdi with h1 | h1
    · rcases desc_parent n _ _ hdj with h2 | h2
      · exact hij (child_inj n v i j (h1.trans h2.symm))
      · have h3 : (w - 1) / 2 ^ n = v := by rw [← h1]; exact parent_of_child n v i hi
        rw [h3] at h2
        have h4 := desc_le n _ _ h2.2
        have h5 := child_gt n v j
        omega
    · rcases desc_parent n _ _ hdj with h2 | h2
      · have h3 : (w - 1) / 2 ^ n = v := by rw [← h2]; exact parent_of_child n v j hj
        rw [h3] at h1
        have h4 := desc_le n _ _ h1.2
        have h5 := child_gt n v i
        omega
      · have h6 : (w - 1) / 2 ^ n < w := by
          have h7 : (w - 1) / 2 ^ n ≤ w - 1 := Nat.div_le_self _ _
          omega
        exact ih _ h6 i j hi hj hij h1.2 h2.2

theorem desc_of_child (n v i w : Nat) (hi : i < 2 ^ n) (h : Desc n (child n v i) w) :
    Desc n v w :=
  Desc.step v i w hi h

theorem desc_child_self (n v i : Nat) (hi : i < 2 ^ n) : Desc n v (child n v i) :=
  Desc.step v i _ hi (Desc.refl _)

theorem pushChild_untouched (n : Nat) (s : ST) (v i : Nat) (quad : Cube) (w : Nat)
    (h : w ≠ child n v i) :
    (pushChild n s v i quad).tree w = s.tree w ∧ (pushChild n s v i quad).ops w = s.ops w := by
  unfold pushChild updateValueFromAbove
  by_cases hp : quad.isPoint <;> simp [hp, upd_ne _ _ _ _ h]

theorem pushLoop_untouched (n v : Nat) : ∀ (pairs : List (Nat × Cube)) (s : ST) (w : Nat),
    (∀ p ∈ pairs, w ≠ child n v p.1) →
    (pushLoop n v pairs s).tree w = s.tree w ∧ (pushLoop n v pairs s).ops w = s.ops w := by
  intro pairs
  induction pairs with
  | nil => intro s w _; exact ⟨rfl, rfl⟩
  | cons p rest ih =>
    intro s w h
    show (pushLoop n v rest (pushChild n s v p.1 p.2)).tree w = s.tree w
      ∧ (pushLoop n v rest (pushChild n s v p.1 p.2)).ops w = s.ops w
    have h1 := ih (pushChild n s v p.1 p.2) w (fun q hq => h q (List.mem_cons_of_mem p hq))
    have h2 := pushChild_untouched n s v p.1 p.2 w (h p (List.mem_cons_self p rest))
    exact ⟨h1.1.trans h2.1, h1.2.trans h2.2⟩

theorem push_untouched (n : Nat) (s : ST) (v : Nat) (dom : Cube) (quads : List Cube) (w : Nat)
    (hv : w ≠ v) (hc : ∀ p ∈ quads.enum, w ≠ child n v p.1) :
    (push n s v dom quads).tree w = s.tree w ∧ (push n s v dom quads).ops w = s.ops w := by
  unfold push updateValueFromAbove
  have h1 := pushLoop_untouched n v quads.enum s w hc
  simp [upd_ne _ _ _ _ hv, h1.1, h1.2]

theorem push_ops_v (n : Nat) (s : ST) (v : Nat) (dom : Cube) (quads : List Cube) :
    (push n s v dom quads).ops v = Op.identity := by
  unfold push updateValueFromAbove
  simp [upd_at]

theorem pushChild_point_ops (n : Nat) (s : ST) (v i : Nat) (quad : Cube)
    (hp : quad.isPoint = true) :
    (pushChild n s v i quad).ops (child n v i) = Op.identity := by
  unfold pushChild updateValueFromAbove
  simp [hp, upd_at]

theorem pushLoop_point_ops (n v : Nat) : ∀ (pairs : List (Nat × Cube)) (s : ST)
    (p : Nat × Cube), p ∈ pairs → p.2.isPoint = true →
    List.Pairwise (fun a b : Nat × Cube => a.1 ≠ b.1) pairs →
    (pushLoop n v pairs s).ops (child n v p.1) = Op.identity := by
  intro pairs
  induction pairs with
  | nil => intro s p hp; simp at hp
  | cons q rest ih =>
    intro s p hp hpt hpw
    rcases List.mem_cons.mp hp with h1 | h1
    · subst h1
      show (pushLoop n v rest (pushChild n s v p.1 p.2)).ops (child n v p.1) = Op.identity
      have h2 : ∀ q2 ∈ rest, child n v p.1 ≠ child n v q2.1 := by
        intro q2 hq2
        intro hcontra
        exact (List.pairwise_cons.mp hpw).1 q2 hq2 (child_inj n v p.1 q2.1 hcontra)
      have h3 := pushLoop_untouched n v rest (pushChild n s v p.1 p.2) (child n v p.1) h2
      rw [h3.2]
      exact pushChild_point_ops n s v p.1 p.2 hpt
    · show (pushLoop n v rest (pushChild n s v q.1 q.2)).ops (child n v p.1) = Op.identity
      exact ih (pushChild n s v q.1 q.2) p h1 hpt (List.pairwise_cons.mp hpw).2

theorem push_point_ops (n : Nat) (s : ST) (v : Nat) (dom : Cube) (quads : List Cube)
    (p : Nat × Cube) (hp : p ∈ quads.enum) (hpt : p.2.isPoint = true)
    (hpw : List.Pairwise (fun a b : Nat × Cube => a.1 ≠ b.1) quads.enum) :
    (push n s v dom quads).ops (child n v p.1) = Op.identity := by
  unfold push updateValueFromAbove
  have h1 := pushLoop_point_ops n v quads.enum s p hp hpt hpw
  have h2 : child n v p.1 ≠ v := (Nat.ne_of_gt (child_gt n v p.1))
  simp [upd_ne _ _ _ _ h2, h1]

theorem enumFrom_pairwise {α : Type} : ∀ (l : List α) (k : Nat),
    List.Pairwise (fun a b : Nat × α => a.1 < b.1) (List.enumFrom k l) := by
  intro l
  induction l with
  | nil => intro k; exact List.Pairwise.nil
  | cons a t ih =>
    intro k
    rw [show List.enumFrom k (a :: t) = (k, a) :: List.enumFrom (k + 1) t from rfl]
    refine List.Pairwise.cons ?_ (ih (k + 1))
    intro p hp
    obtain ⟨d, _, h1, _⟩ := mem_enumFrom t (k + 1) p hp
    omega

theorem enum_pairwise_ne {α : Type} (l : List α) :
    List.Pairwise (fun a b : Nat × α => a.1 ≠ b.1) l.enum :=
  List.Pairwise.imp (fun h => Nat.ne_of_lt h) (enumFrom_pairwise l 0)

theorem pushChild_id (n : Nat) (s : ST) (v i : Nat) (quad : Cube)
    (h1 : s.ops v = Op.identity)
    (h2 : quad.isPoint = true → s.ops (child n v i) = Op.identity) :
    pushChild n s v i quad = s := by
  by_cases hp : quad.isPoint
  · simp only [pushChild, updateValueFromAbove, h1, compose_identity, upd_self, hp, if_true]
    rw [h2 hp, evaluate_identity, upd_self]
    conv_lhs => rw [show Op.identity = s.ops (child n v i) from (h2 hp).symm]
    rw [upd_self]
  · simp only [pushChild, updateValueFromAbove, h1, compose_identity, upd_self, hp, if_false]
    rfl

theorem push_idem (n : Nat) (s : ST) (v : Nat) (dom : Cube) (quads : List Cube)
    (h1 : s.ops v = Op.identity)
    (h2 : ∀ p ∈ quads.enum, p.2.isPoint = true → s.ops (child n v p.1) = Op.identity) :
    push n s v dom quads = s := by
  have hloop : ∀ (pairs : List (Nat × Cube)),
      (∀ p ∈ pairs, p.2.isPoint = true → s.ops (child n v p.1) = Op.identity) →
      pushLoop n v pairs s = s := by
    intro pairs
    induction pairs with
    | nil => intro _; rfl
    | cons p rest ih =>
      intro hh
      show pushLoop n v rest (pushChild n s v p.1 p.2) = s
      rw [pushChild_id n s v p.1 p.2 h1 (hh p (List.mem_cons_self p rest))]
      exact ih (fun q hq => hh q (List.mem_cons_of_mem p hq))
  simp only [push, updateValueFromAbove]
  rw [hloop quads.enum h2, h1, evaluate_identity, upd_self]
  conv_lhs => rw [show Op.identity = s.ops v from h1.symm]
  rw [upd_self]


theorem queryRangeR_zero (n : Nat) (s : ST) (v : Nat) (Q dom : Cube) :
    queryRangeR n 0 s v Q dom = none := rfl

theorem queryRangeR_succ_eq (n f : Nat) (s : ST) (v : Nat) (Q dom : Cube) (h : Q = dom) :
    queryRangeR n (f + 1) s v Q dom = some (s.tree v, s) := by
  show (if Q = dom then some (s.tree v, s)
        else queryFold n (queryRangeR n f) Q v (dom.subdivide n).enum 0
          (push n s v dom (dom.subdivide n))) = some (s.tree v, s)
  rw [if_pos h]

theorem queryRangeR_succ_ne (n f : Nat) (s : ST) (v : Nat) (Q dom : Cube) (h : Q ≠ dom) :
    queryRangeR n (f + 1) s v Q dom =
      queryFold n (queryRangeR n f) Q v (dom.subdivide n).enum 0
        (push n s v dom (dom.subdivide n)) := by
  show (if Q = dom then some (s.tree v, s)
        else queryFold n (queryRangeR n f) Q v (dom.subdivide n).enum 0
          (push n s v dom (dom.subdivide n))) = _
  rw [if_neg h]

theorem queryFold_nil (n : Nat) (recf : ST → Nat → Cube → Cube → Option (Int × ST))
    (Q : Cube) (v : Nat) (acc : Int) (s : ST) :
    queryFold n recf Q v [] acc s = some (acc, s) := rfl

theorem queryFold_cons (n : Nat) (recf : ST → Nat → Cube → Cube → Option (Int × ST))
    (Q : Cube) (v : Nat) (p : Nat × Cube) (rest : List (Nat × Cube)) (acc : Int) (s : ST) :
    queryFold n recf Q v (p :: rest) acc s =
      (if (p.2.inter Q).isEmpty then queryFold n recf Q v rest acc s
       else
        match recf s (child n v p.1) (p.2.inter Q) p.2 with
        | none => none
        | some rs => queryFold n recf Q v rest (acc + rs.1) rs.2) := rfl

theorem queryFold_frame (n : Nat) (recf : ST → Nat → Cube → Cube → Option (Int × ST))
    (hrec : ∀ (s : ST) (c : Nat) (Qc dc : Cube) (r : Int) (s2 : ST),
      recf s c Qc dc = some (r, s2) →
      ∀ w, ¬ Desc n c w → s2.tree w = s.tree w ∧ s2.ops w = s.ops w)
    (Q : Cube) (v : Nat) : ∀ (pairs : List (Nat × Cube)) (acc : Int) (s : ST) (r : Int)
    (s2 : ST), queryFold n recf Q v pairs acc s = some (r, s2) →
    ∀ w, (∀ p ∈ pairs, ¬ Desc n (child n v p.1) w) →
    s2.tree w = s.tree w ∧ s2.ops w = s.ops w := by
  intro pairs
  induction pairs with
  | nil =>
    intro acc s r s2 h w _
    rw [queryFold_nil] at h
    have h2 := Option.some.inj h
    rw [← (Prod.mk.injEq _ _ _ _).mp h2 |>.2]
    exact ⟨rfl, rfl⟩
  | cons p rest ih =>
    intro acc s r s2 h w hnd
    rw [queryFold_cons] at h
    by_cases hie : (p.2.inter Q).isEmpty
    · rw [if_pos hie] at h
      exact ih acc s r s2 h w (fun q hq => hnd q (List.mem_cons_of_mem p hq))
    · rw [if_neg hie] at h
      cases hrc : recf s (child n v p.1) (p.2.inter Q) p.2 with
      | none => rw [hrc] at h; exact absurd h (by simp)
      | some rs =>
        rw [hrc] at h
        have h1 := ih (acc + rs.1) rs.2 r s2 h w (fun q hq => hnd q (List.mem_cons_of_mem p hq))
        have h2 := hrec s (child n v p.1) (p.2.inter Q) p.2 rs.1 rs.2 hrc w
          (hnd p (List.mem_cons_self p rest))
        exact ⟨h1.1.trans h2.1, h1.2.trans h2.2⟩

theorem query_frame (n : Nat) : ∀ (fuel : Nat) (s : ST) (v : Nat) (Q dom : Cube) (r : Int)
    (s2 : ST), queryRangeR n fuel s v Q dom = some (r, s2) →
    ∀ w, ¬ Desc n v w → s2.tree w = s.tree w ∧ s2.ops w = s.ops w := by
  intro fuel
  induction fuel with
  | zero =>
    intro s v Q dom r s2 h
    rw [queryRangeR_zero] at h
    exact absurd h (by simp)
  | succ f ih =>
    intro s v Q dom r s2 h w hw
    by_cases heq : Q = dom
    · rw [queryRangeR_succ_eq n f s v Q dom heq] at h
      have h2 := Option.some.inj h
      rw [← (Prod.mk.injEq _ _ _ _).mp h2 |>.2]
      exact ⟨rfl, rfl⟩
    · rw [queryRangeR_succ_ne n f s v Q dom heq] at h
      have hch : ∀ p ∈ (dom.subdivide n).enum, ¬ Desc n (child n v p.1) w := by
        intro p hp hd
        exact hw (desc_of_child n v p.1 w (mem_enum_subdivide n dom p hp).1 hd)
      have h1 := queryFold_frame n (queryRangeR n f) ih Q v (dom.subdivide n).enum 0
        (push n s v dom (dom.subdivide n)) r s2 h w hch
      have h2 : (push n s v dom (dom.subdivide n)).tree w = s.tree w
          ∧ (push n s v dom (dom.subdivide n)).ops w = s.ops w := by
        refine push_untouched n s v dom (dom.subdivide n) w ?_ ?_
        · intro hc
          rw [hc] at hw
          exact hw (Desc.refl v)
        · intro p hp hc
          rw [hc] at hw
          exact hw (desc_child_self n v p.1 (mem_enum_subdivide n dom p hp).1)
      exact ⟨h1.1.trans h2.1, h1.2.trans h2.2⟩

theorem pushChild_tree_char (n : Nat) (s : ST) (v i : Nat) (quad : Cube) (w : Nat) :
    (pushChild n s v i quad).tree w =
      (if w = child n v i ∧ quad.isPoint = true then
        ((s.ops (child n v i)).composeWith (s.ops v)).evaluate (s.tree (child n v i)) quad
       else s.tree w) := by
  by_cases hp : quad.isPoint <;> by_cases hw : w = child n v i <;>
    simp [pushChild, updateValueFromAbove, upd, hp, hw]

theorem pushChild_ops_char (n : Nat) (s : ST) (v i : Nat) (quad : Cube) (w : Nat) :
    (pushChild n s v i quad).ops w =
      (if w = child n v i then
        (if quad.isPoint = true then Op.identity
         else (s.ops (child n v i)).composeWith (s.ops v))
       else s.ops w) := by
  by_cases hp : quad.isPoint <;> by_cases hw : w = child n v i <;>
    simp [pushChild, updateValueFromAbove, upd, hp, hw]

theorem pushLoop_congr (n v : Nat) (A : Nat → Prop) (hAv : A v) :
    ∀ (pairs : List (Nat × Cube)) (s t : ST), agreeOn A s t →
    (∀ p ∈ pairs, A (child n v p.1)) →
    agreeOn A (pushLoop n v pairs s) (pushLoop n v pairs t) := by
  intro pairs
  induction pairs with
  | nil => intro s t h _; exact h
  | cons p rest ih =>
    intro s t h hch
    show agreeOn A (pushLoop n v rest (pushChild n s v p.1 p.2))
      (pushLoop n v rest (pushChild n t v p.1 p.2))
    refine ih (pushChild n s v p.1 p.2) (pushChild n t v p.1 p.2) ?_
      (fun q hq => hch q (List.mem_cons_of_mem p hq))
    intro w hw
    have hc := hch p (List.mem_cons_self p rest)
    constructor
    · rw [pushChild_tree_char, pushChild_tree_char]
      rw [(h _ hc).2, (h _ hAv).2, (h _ hc).1, (h _ hw).1]
    · rw [pushChild_ops_char, pushChild_ops_char]
      rw [(h _ hc).2, (h _ hAv).2, (h _ hw).2]

theorem push_congr (n : Nat) (v : Nat) (dom : Cube) (quads : List Cube) (A : Nat → Prop)
    (hAv : A v) (hch : ∀ p ∈ quads.enum, A (child n v p.1)) (s t : ST)
    (h : agreeOn A s t) :
    agreeOn A (push n s v dom quads) (push n t v dom quads) := by
  have hl := pushLoop_congr n v A hAv quads.enum s t h hch
  intro w hw
  unfold push updateValueFromAbove
  by_cases hv : w = v
  · subst hv
    simp only [upd]
    rw [(hl _ hAv).1, (hl _ hAv).2]
    simp
  · simp only [upd, if_neg hv]
    exact ⟨(hl _ hw).1, (hl _ hw).2⟩

theorem queryFold_congr (n : Nat) (recf : ST → Nat → Cube → Cube → Option (Int × ST))
    (hrecframe : ∀ (s : ST) (c : Nat) (Qc dc : Cube) (r : Int) (s2 : ST),
      recf s c Qc dc = some (r, s2) →
      ∀ w, ¬ Desc n c w → s2.tree w = s.tree w ∧ s2.ops w = s.ops w)
    (hreccongr : ∀ (s t : ST) (c : Nat) (Qc dc : Cube) (r : Int) (s2 : ST),
      agreeOn (Desc n c) s t → recf s c Qc dc = some (r, s2) →
      ∃ t2, recf t c Qc dc = some (r, t2) ∧ agreeOn (Desc n c) s2 t2)
    (Q : Cube) (v : Nat) : ∀ (pairs : List (Nat × Cube)) (acc : Int) (s t : ST) (r : Int)
    (s2 : ST), (∀ p ∈ pairs, p.1 < 2 ^ n) → agreeOn (Desc n v) s t →
    queryFold n recf Q v pairs acc s = some (r, s2) →
    ∃ t2, queryFold n recf Q v pairs acc t = some (r, t2) ∧ agreeOn (Desc n v) s2 t2 := by
  intro pairs
  induction pairs with
  | nil =>
    intro acc s t r s2 _ hag h
    rw [queryFold_nil] at h
    have h2 := Option.some.inj h
    refine ⟨t, ?_, ?_⟩
    · rw [queryFold_nil, (Prod.mk.injEq _ _ _ _).mp h2 |>.1]
    · rw [← (Prod.mk.injEq _ _ _ _).mp h2 |>.2]
      exact hag
  | cons p rest ih =>
    intro acc s t r s2 hlt hag h
    rw [queryFold_cons] at h
    by_cases hie : (p.2.inter Q).isEmpty
    · rw [if_pos hie] at h
      obtain ⟨t2, ht2, hagt⟩ := ih acc s t r s2 (fun q hq => hlt q (List.mem_cons_of_mem p hq))
        hag h
      exact ⟨t2, by rw [queryFold_cons, if_pos hie]; exact ht2, hagt⟩
    · rw [if_neg hie] at h
      cases hrc : recf s (child n v p.1) (p.2.inter Q) p.2 with
      | none => rw [hrc] at h; exact absurd h (by simp)
      | some rs =>
        rw [hrc] at h
        have hplt := hlt p (List.mem_cons_self p rest)
        have hagc : agreeOn (Desc n (child n v p.1)) s t := by
          intro w hw
          exact hag w (desc_of_child n v p.1 w hplt hw)
        obtain ⟨t3, ht3, hagc2⟩ := hreccongr s t (child n v p.1) (p.2.inter Q) p.2 rs.1 rs.2
          hagc hrc
        have hagv : agreeOn (Desc n v) rs.2 t3 := by
          intro w hw
          by_cases hwc : Desc n (child n v p.1) w
          · exact hagc2 w hwc
          · have hs := hrecframe s (child n v p.1) (p.2.inter Q) p.2 rs.1 rs.2 hrc w hwc
            have ht := hrecframe t (child n v p.1) (p.2.inter Q) p.2 rs.1 t3 ht3 w hwc
            have ha := hag w hw
            exact ⟨hs.1.trans (ha.1.trans ht.1.symm), hs.2.trans (ha.2.trans ht.2.symm)⟩
        obtain ⟨t2, ht2, hagf⟩ := ih (acc + rs.1) rs.2 t3 r s2
          (fun q hq => hlt q (List.mem_cons_of_mem p hq)) hagv h
        refine ⟨t2, ?_, hagf⟩
        rw [queryFold_cons, if_neg hie, ht3]
        exact ht2

theorem query_congr (n : Nat) : ∀ (fuel : Nat) (s t : ST) (v : Nat) (Q dom : Cube) (r : Int)
    (s2 : ST), agreeOn (Desc n v) s t → queryRangeR n fuel s v Q dom = some (r, s2) →
    ∃ t2, queryRangeR n fuel t v Q dom = some (r, t2) ∧ agreeOn (Desc n v) s2 t2 := by
  intro fuel
  induction fuel with
  | zero =>
    intro s t v Q dom r s2 _ h
    rw [queryRangeR_zero] at h
    exact absurd h (by simp)
  | succ f ih =>
    intro s t v Q dom r s2 hag h
    by_cases heq : Q = dom
    · rw [queryRangeR_succ_eq n f s v Q dom heq] at h
      have h2 := Option.some.inj h
      refine ⟨t, ?_, ?_⟩
      · rw [queryRangeR_succ_eq n f t v Q dom heq, ← (hag v (Desc.refl v)).1,
          (Prod.mk.injEq _ _ _ _).mp h2 |>.1]
      · rw [← (Prod.mk.injEq _ _ _ _).mp h2 |>.2]
        exact hag
    · rw [queryRangeR_succ_ne n f s v Q dom heq] at h
      have hpush := push_congr n v dom (dom.subdivide n) (Desc n v) (Desc.refl v)
        (fun p hp => desc_child_self n v p.1 (mem_enum_subdivide n dom p hp).1) s t hag
      obtain ⟨t2, ht2, hagf⟩ := queryFold_congr n (queryRangeR n f) (query_frame n f) ih Q v
        (dom.subdivide n).enum 0 (push n s v dom (dom.subdivide n))
        (push n t v dom (dom.subdivide n)) r s2
        (fun p hp => (mem_enum_subdivide n dom p hp).1) hpush h
      exact ⟨t2, by rw [queryRangeR_succ_ne n f t v Q dom heq]; exact ht2, hagf⟩



theorem volume_nonneg : ∀ (la lb : List Int), ordAxes la lb = true →
    0 ≤ Cube.volume ⟨la, lb⟩ := by
  intro la
  induction la with
  | nil =>
    intro lb ho
    cases lb with
    | nil => norm_num [Cube.volume]
    | cons b bs => simp [ordAxes] at ho
  | cons a as ih =>
    intro lb ho
    cases lb with
    | nil => simp [ordAxes] at ho
    | cons b bs =>
      rw [show ordAxes (a :: as) (b :: bs) = (decide (a ≤ b) && ordAxes as bs) from rfl] at ho
      simp only [Bool.and_eq_true, decide_eq_true_eq] at ho
      rw [volume_cons]
      exact mul_nonneg (by omega) (ih bs ho.2)

theorem point_extents : ∀ (la lb : List Int), ordAxes la lb = true →
    Cube.volume ⟨la, lb⟩ = 1 → unifAxes 0 la lb := by
  intro la
  induction la with
  | nil =>
    intro lb ho _
    cases lb with
    | nil => exact List.Forall₂.nil
    | cons b bs => simp [ordAxes] at ho
  | cons a as ih =>
    intro lb ho hv
    cases lb with
    | nil => simp [ordAxes] at ho
    | cons b bs =>
      rw [show ordAxes (a :: as) (b :: bs) = (decide (a ≤ b) && ordAxes as bs) from rfl] at ho
      simp only [Bool.and_eq_true, decide_eq_true_eq] at ho
      rw [volume_cons] at hv
      have hh := volume_nonneg as bs ho.2
      rcases Int.mul_eq_one_iff_eq_one_or_neg_one.mp hv with ⟨hx, hy⟩ | ⟨hx, hy⟩
      · refine List.Forall₂.cons (by simpa using (by omega : b = a + 1)) (ih bs ho.2 hy)
      · omega

theorem inter_unif0_eq : ∀ (la lb : List Int), unifAxes 0 la lb → ∀ (ma mb : List Int),
    la.length = ma.length → lb.length = mb.length →
    Cube.volume ⟨(interAxes la lb ma mb).1, (interAxes la lb ma mb).2⟩ ≠ 0 →
    (interAxes la lb ma mb).1 = la ∧ (interAxes la lb ma mb).2 = lb := by
  intro la lb hu
  induction hu with
  | nil =>
    intro ma mb h1 h2 _
    simp only [List.length_nil] at h1 h2
    have h3 := (List.length_eq_zero).mp h1.symm
    have h4 := (List.length_eq_zero).mp h2.symm
    subst h3
    subst h4
    exact ⟨rfl, rfl⟩
  | @cons a b as bs hab ht ih =>
    intro ma mb h1 h2 hv
    cases ma with
    | nil => simp at h1
    | cons m ms =>
      cases mb with
      | nil => simp at h2
      | cons w ws =>
        simp only [List.length_cons, Nat.add_right_cancel_iff] at h1 h2
        have hab1 : b = a + 1 := by simpa using hab
        rw [show interAxes (a :: as) (b :: bs) (m :: ms) (w :: ws) =
            (if min b w ≤ max a m
             then (0 :: (interAxes as bs ms ws).1, 0 :: (interAxes as bs ms ws).2)
             else (max a m :: (interAxes as bs ms ws).1,
               min b w :: (interAxes as bs ms ws).2)) from rfl] at hv ⊢
        by_cases hc : min b w ≤ max a m
        · exfalso
          rw [if_pos hc, volume_cons] at hv
          simp at hv
        · rw [if_neg hc] at hv ⊢
          rw [volume_cons] at hv
          have hvt : Cube.volume ⟨(interAxes as bs ms ws).1, (interAxes as bs ms ws).2⟩ ≠ 0 := by
            intro h0
            rw [h0] at hv
            simp at hv
          have hr := ih ms ws h1 h2 hvt
          have hmax : max a m = a ∧ min b w = b := by
            constructor <;> omega
          rw [hr.1, hr.2, hmax.1, hmax.2]
          exact ⟨rfl, rfl⟩

theorem isPoint_volume (q : Cube) (h : q.isPoint = true) : Cube.volume ⟨q.l, q.r⟩ = 1 := by
  rw [show Cube.isPoint q = (Cube.volume q == 1) from rfl] at h
  exact beq_iff_eq.mp h

theorem isEmpty_false_volume (q : Cube) (h : q.isEmpty = false) :
    Cube.volume ⟨q.l, q.r⟩ ≠ 0 := by
  rw [show Cube.isEmpty q = (Cube.volume q == 0) from rfl] at h
  intro h0
  rw [show Cube.volume q = Cube.volume ⟨q.l, q.r⟩ from rfl, h0] at h
  simp at h

theorem inter_point_exact (quad Q : Cube) (hp : quad.isPoint = true)
    (ho : ordAxes quad.l quad.r = true) (h1 : quad.l.length = Q.l.length)
    (h2 : quad.r.length = Q.r.length) (hne : (quad.inter Q).isEmpty = false) :
    quad.inter Q = quad := by
  have hu := point_extents quad.l quad.r ho (isPoint_volume quad hp)
  have hvne := isEmpty_false_volume (quad.inter Q) hne
  have hr := inter_unif0_eq quad.l quad.r hu Q.l Q.r h1 h2 hvne
  show (⟨(interAxes quad.l quad.r Q.l Q.r).1, (interAxes quad.l quad.r Q.l Q.r).2⟩ : Cube) = quad
  rw [hr.1, hr.2]

theorem childAxes_ordered : ∀ (la lb : List Int) (i : Nat), ordAxes la lb = true →
    ordAxes (childAxes la lb i).1 (childAxes la lb i).2 = true := by
  intro la
  induction la with
  | nil =>
    intro lb i ho
    cases lb with
    | nil => rfl
    | cons b bs => simp [ordAxes] at ho
  | cons a as ih =>
    intro lb i ho
    cases lb with
    | nil => simp [ordAxes] at ho
    | cons b bs =>
      rw [show ordAxes (a :: as) (b :: bs) = (decide (a ≤ b) && ordAxes as bs) from rfl] at ho
      simp only [Bool.and_eq_true, decide_eq_true_eq] at ho
      have hm := mid_between a b ho.1
      rw [show childAxes (a :: as) (b :: bs) i =
          (if i % 2 = 1 then (a :: (childAxes as bs (i / 2)).1, mid a b :: (childAxes as bs (i / 2)).2)
           else (mid a b :: (childAxes as bs (i / 2)).1, b :: (childAxes as bs (i / 2)).2)) from rfl]
      by_cases hb : i % 2 = 1
      · rw [if_pos hb]
        show (decide (a ≤ mid a b) && ordAxes (childAxes as bs (i / 2)).1
          (childAxes as bs (i / 2)).2) = true
        simp only [Bool.and_eq_true, decide_eq_true_eq]
        exact ⟨hm.1, ih bs (i / 2) ho.2⟩
      · rw [if_neg hb]
        show (decide (mid a b ≤ b) && ordAxes (childAxes as bs (i / 2)).1
          (childAxes as bs (i / 2)).2) = true
        simp only [Bool.and_eq_true, decide_eq_true_eq]
        exact ⟨hm.2, ih bs (i / 2) ho.2⟩

theorem st_eq_of_pointwise (s t : ST) (h1 : ∀ w, s.tree w = t.tree w)
    (h2 : ∀ w, s.ops w = t.ops w) : s = t := by
  cases s
  cases t
  simp only [ST.mk.injEq]
  exact ⟨funext h1, funext h2⟩

theorem query_exact (n f : Nat) (s : ST) (c : Nat) (Qc dc : Cube) (r : Int) (s2 : ST)
    (he : Qc = dc) (h : queryRangeR n f s c Qc dc = some (r, s2)) :
    r = s.tree c ∧ s2 = s := by
  cases f with
  | zero => rw [queryRangeR_zero] at h; exact absurd h (by simp)
  | succ f =>
    rw [queryRangeR_succ_eq n f s c Qc dc he] at h
    have h2 := Option.some.inj h
    exact ⟨((Prod.mk.injEq _ _ _ _).mp h2).1.symm, ((Prod.mk.injEq _ _ _ _).mp h2).2.symm⟩

theorem queryFold_points (n : Nat) (recf : ST → Nat → Cube → Cube → Option (Int × ST))
    (hrecframe : ∀ (s : ST) (c : Nat) (Qc dc : Cube) (r : Int) (s2 : ST),
      recf s c Qc dc = some (r, s2) →
      ∀ w, ¬ Desc n c w → s2.tree w = s.tree w ∧ s2.ops w = s.ops w)
    (hrecexact : ∀ (s : ST) (c : Nat) (Qc dc : Cube) (r : Int) (s2 : ST), Qc = dc →
      recf s c Qc dc = some (r, s2) → r = s.tree c ∧ s2 = s)
    (Q : Cube) (v : Nat) : ∀ (pairs : List (Nat × Cube)) (acc : Int) (s : ST) (r : Int)
    (s2 : ST), (∀ p ∈ pairs, p.1 < 2 ^ n) →
    List.Pairwise (fun a b : Nat × Cube => a.1 ≠ b.1) pairs →
    (∀ p ∈ pairs, p.2.l.length = Q.l.length ∧ p.2.r.length = Q.r.length ∧
      ordAxes p.2.l p.2.r = true) →
    queryFold n recf Q v pairs acc s = some (r, s2) →
    ∀ p ∈ pairs, p.2.isPoint = true →
      s2.tree (child n v p.1) = s.tree (child n v p.1)
      ∧ s2.ops (child n v p.1) = s.ops (child n v p.1) := by
  intro pairs
  induction pairs with
  | nil => intro acc s r s2 _ _ _ _ p hp; simp at hp
  | cons q rest ih =>
    intro acc s r s2 hlt hpw hwf h p hp hpt
    have hqlt := hlt q (List.mem_cons_self q rest)
    have hnotdesc : ∀ (pc : Nat × Cube), pc ∈ rest → ∀ w, Desc n (child n v q.1) w →
        ¬ Desc n (child n v pc.1) w := by
      intro pc hpc w hd1 hd2
      exact desc_sibling n v w q.1 pc.1 hqlt (hlt pc (List.mem_cons_of_mem q hpc))
        ((List.pairwise_cons.mp hpw).1 pc hpc) hd1 hd2
    rw [queryFold_cons] at h
    by_cases hie : (q.2.inter Q).isEmpty
    · rw [if_pos hie] at h
      rcases List.mem_cons.mp hp with h1 | h1
      · subst h1
        exact queryFold_frame n recf hrecframe Q v rest acc s r s2 h (child n v p.1)
          (fun pc hpc => hnotdesc pc hpc (child n v p.1) (Desc.refl _))
      · exact ih acc s r s2 (fun pc hpc => hlt pc (List.mem_cons_of_mem q hpc))
          (List.pairwise_cons.mp hpw).2
          (fun pc hpc => hwf pc (List.mem_cons_of_mem q hpc)) h p h1 hpt
    · rw [if_neg hie] at h
      cases hrc : recf s (child n v q.1) (q.2.inter Q) q.2 with
      | none => rw [hrc] at h; exact absurd h (by simp)
      | some rs =>
        rw [hrc] at h
        rcases List.mem_cons.mp hp with h1 | h1
        · subst h1
          have hwfq := hwf p (List.mem_cons_self p rest)
          have hne2 : (p.2.inter Q).isEmpty = false := by
            simp only [Bool.not_eq_true] at hie
            exact hie
          have hexact : p.2.inter Q = p.2 :=
            inter_point_exact p.2 Q hpt hwfq.2.2 hwfq.1 hwfq.2.1 hne2
          have hre := hrecexact s (child n v p.1) (p.2.inter Q) p.2 rs.1 rs.2 hexact hrc
          have h5 : queryFold n recf Q v rest (acc + rs.1) rs.2 = some (r, s2) := h
          rw [hre.2] at h5
          exact queryFold_frame n recf hrecframe Q v rest (acc + rs.1) s r s2 h5
            (child n v p.1)
            (fun pc hpc => hnotdesc pc hpc (child n v p.1) (Desc.refl _))
        · have hstep := hrecframe s (child n v q.1) (q.2.inter Q) q.2 rs.1 rs.2 hrc
            (child n v p.1)
            (fun hd => desc_sibling n v (child n v p.1) q.1 p.1 hqlt
              (hlt p (List.mem_cons_of_mem q h1)) ((List.pairwise_cons.mp hpw).1 p h1)
              hd (Desc.refl _))
          have h5 : queryFold n recf Q v rest (acc + rs.1) rs.2 = some (r, s2) := h
          have hrest := ih (acc + rs.1) rs.2 r s2
            (fun pc hpc => hlt pc (List.mem_cons_of_mem q hpc))
            (List.pairwise_cons.mp hpw).2
            (fun pc hpc => hwf pc (List.mem_cons_of_mem q hpc)) h5 p h1 hpt
          exact ⟨hrest.1.trans hstep.1, hrest.2.trans hstep.2⟩



theorem queryFold_requery (n : Nat) (recf : ST → Nat → Cube → Cube → Option (Int × ST))
    (hrecframe : ∀ (s : ST) (c : Nat) (Qc dc : Cube) (r : Int) (s2 : ST),
      recf s c Qc dc = some (r, s2) →
      ∀ w, ¬ Desc n c w → s2.tree w = s.tree w ∧ s2.ops w = s.ops w)
    (hreccongr : ∀ (s t : ST) (c : Nat) (Qc dc : Cube) (r : Int) (s2 : ST),
      agreeOn (Desc n c) s t → recf s c Qc dc = some (r, s2) →
      ∃ t2, recf t c Qc dc = some (r, t2) ∧ agreeOn (Desc n c) s2 t2)
    (hrecidem : ∀ (s : ST) (c : Nat) (Qc dc : Cube) (r : Int) (s2 : ST),
      dc.l.length = Qc.l.length → dc.r.length = Qc.r.length →
      dc.l.length = dc.r.length → ordAxes dc.l dc.r = true →
      recf s c Qc dc = some (r, s2) → recf s2 c Qc dc = some (r, s2))
    (Q : Cube) (v : Nat) (hQ : Q.l.length = Q.r.length) :
    ∀ (pairs : List (Nat × Cube)) (acc : Int) (s : ST) (r : Int) (s2 : ST),
    (∀ p ∈ pairs, p.1 < 2 ^ n) →
    List.Pairwise (fun a b : Nat × Cube => a.1 ≠ b.1) pairs →
    (∀ p ∈ pairs, p.2.l.length = Q.l.length ∧ p.2.r.length = Q.r.length ∧
      ordAxes p.2.l p.2.r = true) →
    queryFold n recf Q v pairs acc s = some (r, s2) →
    queryFold n recf Q v pairs acc s2 = some (r, s2) := by
  intro pairs
  induction pairs with
  | nil =>
    intro acc s r s2 _ _ _ h
    rw [queryFold_nil] at h
    have h2 := Option.some.inj h
    rw [queryFold_nil, ((Prod.mk.injEq _ _ _ _).mp h2).1]
  | cons q rest ih =>
    intro acc s r s2 hlt hpw hwf h
    have hqlt := hlt q (List.mem_cons_self q rest)
    rw [queryFold_cons] at h
    rw [queryFold_cons]
    by_cases hie : (q.2.inter Q).isEmpty
    · rw [if_pos hie] at h ⊢
      exact ih acc s r s2 (fun pc hpc => hlt pc (List.mem_cons_of_mem q hpc))
        (List.pairwise_cons.mp hpw).2 (fun pc hpc => hwf pc (List.mem_cons_of_mem q hpc)) h
    · rw [if_neg hie] at h ⊢
      cases hrc : recf s (child n v q.1) (q.2.inter Q) q.2 with
      | none => rw [hrc] at h; exact absurd h (by simp)
      | some rs =>
        rw [hrc] at h
        have h5 : queryFold n recf Q v rest (acc + rs.1) rs.2 = some (r, s2) := h
        have hwfq := hwf q (List.mem_cons_self q rest)
        have hq1 : q.2.l.length = q.2.r.length := by rw [hwfq.1, hwfq.2.1, ← hQ]
        have hil := interAxes_length q.2.l q.2.r Q.l Q.r hq1 hwfq.1 hQ
        have hidem := hrecidem s (child n v q.1) (q.2.inter Q) q.2 rs.1 rs.2
          (by show q.2.l.length = (interAxes q.2.l q.2.r Q.l Q.r).1.length; rw [hil.1])
          (by show q.2.r.length = (interAxes q.2.l q.2.r Q.l Q.r).2.length
              rw [hil.2]; exact hq1.symm)
          hq1 hwfq.2.2 hrc
        have hagree : agreeOn (Desc n (child n v q.1)) rs.2 s2 := by
          intro w hw
          have := queryFold_frame n recf hrecframe Q v rest (acc + rs.1) rs.2 r s2 h5 w
            (fun pc hpc hd => desc_sibling n v w q.1 pc.1 hqlt
              (hlt pc (List.mem_cons_of_mem q hpc)) ((List.pairwise_cons.mp hpw).1 pc hpc)
              hw hd)
          exact ⟨this.1.symm, this.2.symm⟩
        obtain ⟨t2, ht2, hagt⟩ := hreccongr rs.2 s2 (child n v q.1) (q.2.inter Q) q.2 rs.1
          rs.2 hagree hidem
        have ht2eq : t2 = s2 := by
          refine st_eq_of_pointwise t2 s2 ?_ ?_
          · intro w
            by_cases hw : Desc n (child n v q.1) w
            · rw [← (hagt w hw).1, (hagree w hw).1]
            · exact (hrecframe s2 (child n v q.1) (q.2.inter Q) q.2 rs.1 t2 ht2 w hw).1
          · intro w
            by_cases hw : Desc n (child n v q.1) w
            · rw [← (hagt w hw).2, (hagree w hw).2]
            · exact (hrecframe s2 (child n v q.1) (q.2.inter Q) q.2 rs.1 t2 ht2 w hw).2
        rw [ht2eq] at ht2
        rw [ht2]
        show queryFold n recf Q v rest (acc + rs.1) s2 = some (r, s2)
        exact ih (acc + rs.1) rs.2 r s2 (fun pc hpc => hlt pc (List.mem_cons_of_mem q hpc))
          (List.pairwise_cons.mp hpw).2 (fun pc hpc => hwf pc (List.mem_cons_of_mem q hpc)) h5

theorem query_requery (n : Nat) : ∀ (fuel : Nat) (s : ST) (v : Nat) (Q dom : Cube) (r : Int)
    (s2 : ST), dom.l.length = Q.l.length → dom.r.length = Q.r.length →
    dom.l.length = dom.r.length → ordAxes dom.l dom.r = true →
    queryRangeR n fuel s v Q dom = some (r, s2) →
    queryRangeR n fuel s2 v Q dom = some (r, s2) := by
  intro fuel
  induction fuel with
  | zero =>
    intro s v Q dom r s2 _ _ _ _ h
    rw [queryRangeR_zero] at h
    exact absurd h (by simp)
  | succ f ih =>
    intro s v Q dom r s2 hd1 hd2 hd3 hord h
    by_cases heq : Q = dom
    · rw [queryRangeR_succ_eq n f s v Q dom heq] at h
      have h2 := Option.some.inj h
      rw [queryRangeR_succ_eq n f s2 v Q dom heq,
        ← ((Prod.mk.injEq _ _ _ _).mp h2).2, ((Prod.mk.injEq _ _ _ _).mp h2).1]
    · rw [queryRangeR_succ_ne n f s v Q dom heq] at h
      have hplt : ∀ p ∈ (dom.subdivide n).enum, p.1 < 2 ^ n :=
        fun p hp => (mem_enum_subdivide n dom p hp).1
      have hppw := enum_pairwise_ne (dom.subdivide n)
      have hpwf : ∀ p ∈ (dom.subdivide n).enum, p.2.l.length = Q.l.length
          ∧ p.2.r.length = Q.r.length ∧ ordAxes p.2.l p.2.r = true := by
        intro p hp
        have hpc := (mem_enum_subdivide n dom p hp).2
        have hcl := childAxes_length dom.l dom.r p.1 hd3
        refine ⟨?_, ?_, ?_⟩
        · rw [hpc]
          show (childAxes dom.l dom.r p.1).1.length = Q.l.length
          rw [hcl.1, hd1]
        · rw [hpc]
          show (childAxes dom.l dom.r p.1).2.length = Q.r.length
          rw [hcl.2, hd3, hd2]
        · rw [hpc]
          exact childAxes_ordered dom.l dom.r p.1 hord
      have hopsv : s2.ops v = Op.identity := by
        have hfr := queryFold_frame n (queryRangeR n f) (query_frame n f) Q v
          (dom.subdivide n).enum 0 (push n s v dom (dom.subdivide n)) r s2 h v
          (fun p hp hd => by
            have h1 := desc_le n _ _ hd
            have h2 := child_gt n v p.1
            omega)
        rw [hfr.2, push_ops_v]
      have hpts : ∀ p ∈ (dom.subdivide n).enum, p.2.isPoint = true →
          s2.ops (child n v p.1) = Op.identity := by
        intro p hp hpt
        have hfp := queryFold_points n (queryRangeR n f) (query_frame n f)
          (query_exact n f) Q v (dom.subdivide n).enum 0
          (push n s v dom (dom.subdivide n)) r s2 hplt hppw hpwf h p hp hpt
        rw [hfp.2]
        exact push_point_ops n s v dom (dom.subdivide n) p hp hpt hppw
      have hpidem := push_idem n s2 v dom (dom.subdivide n) hopsv hpts
      rw [queryRangeR_succ_ne n f s2 v Q dom heq, hpidem]
      have hQ : Q.l.length = Q.r.length := by rw [← hd1, ← hd2, hd3]
      exact queryFold_requery n (queryRangeR n f) (query_frame n f) (query_congr n f)
        (fun s c Qc dc r s2 w1 w2 w3 w4 hh => ih s c Qc dc r s2 w1 w2 w3 w4 hh) Q v hQ
        (dom.subdivide n).enum 0 (push n s v dom (dom.subdivide n)) r s2 hplt hppw hpwf h


/-- C3: refuted on the code (code bug). For dims [2,3] with the row-major
array [0,1,2,3,4,5], the build recursion never terminates (the empty quadrant
[1,1) x [2,3) is its own first child), so no cell can be read back after
construction; moreover the Linear index formula multiplies by dims[i] instead
of dims[i+1], mapping the distinct cells (1,0) and (0,2) to the same flat
index 2 and disagreeing with the row-major index of (1,0), which is 3. -/
theorem c3_roundtrip_violated :
    (∀ fuel, segMk 2 [2, 3] [0, 1, 2, 3, 4, 5] fuel = none)
    ∧ linear [2, 3] [1, 0] = linear [2, 3] [0, 2]
    ∧ linear [2, 3] [1, 0] ≠ rowMajor [2, 3] [1, 0] :=
  ⟨c3_build_none, rfl, by decide⟩

/-- C4: refuted on the code (code bug). Construction with the positive
extents [1,2] and a matching length-2 array never terminates: whatever
recursion depth (fuel) is allowed, BuildTreeR does not return, because the
zero-volume quadrant [0,0) x [1,2) reproduces itself as its own first child.
-/
theorem c4_build_divergence : ∀ fuel, segMk 2 [1, 2] [0, 0] fuel = none :=
  c4_build_none

/-- C7: confirmed. Querying any domain with axis counts matching the entire
domain twice in a row, from any engine state, returns the same value both
times (and the second call leaves the state exactly as the first left it):
the pushdown performed by the first query does not alter any observable sum.
-/
theorem c7_requery_idempotent (n fuel : Nat) (s : ST) (ent D : Cube) (r : Int) (s2 : ST)
    (hl : ent.l.length = D.l.length) (hr : ent.r.length = D.r.length)
    (hlr : ent.l.length = ent.r.length) (hord : ordAxes ent.l ent.r = true)
    (h : queryRange n ent fuel s D = some (r, s2)) :
    queryRange n ent fuel s2 D = some (r, s2) :=
  query_requery n fuel s 0 D ent r s2 hl hr hlr hord h

/-- C7 witness: re-running the sample query of the cell [0,1) over the entire
domain [0,2) from the state the first run produced returns the same value and
the same state. -/
theorem c7_requery_witness :
    queryRange 1 ⟨[0], [2]⟩ 3 c7wSt ⟨[0], [1]⟩ = some (c7wVal, c7wSt) :=
  c7_requery_idempotent 1 3 initST ⟨[0], [2]⟩ ⟨[0], [1]⟩ c7wVal c7wSt rfl rfl rfl
    (by decide) (by rfl)

end NDSeg
